import Mathlib

/-!
Verification of the `shop_manager` order-management core.

Python strings are modelled as lists of characters (`Str`), Python floats
holding money amounts as exact rationals (`ℚ`), and `round(x, 2)` as rounding
to the nearest multiple of 1/100 with ties to even (banker's rounding, the
semantics of Python's `round` on exactly representable inputs).
-/

namespace ShopManager

/-- Python `str` values. -/
abbrev Str := List Char

/-- Python `str.strip()`: remove leading and trailing whitespace. -/
def strip (s : Str) : Str :=
  ((s.dropWhile Char.isWhitespace).reverse.dropWhile Char.isWhitespace).reverse

/-- Rounding a rational to the nearest integer, ties to even
(Python's `round` with no digits argument). -/
def roundHalfEven (q : ℚ) : ℤ :=
  let f := ⌊q⌋
  if q - f < 1/2 then f
  else if 1/2 < q - f then f + 1
  else if f % 2 = 0 then f else f + 1

/-- Python `round(q, 2)`: round to two decimal places, ties to even. -/
def round2 (q : ℚ) : ℚ := (roundHalfEven (q * 100) : ℚ) / 100

theorem roundHalfEven_intCast (k : ℤ) : roundHalfEven (k : ℚ) = k := by
  simp [roundHalfEven]

/-- `round(·, 2)` is the identity on amounts that already have at most two
decimal places. -/
theorem round2_eq_self {q : ℚ} (k : ℤ) (hk : q = (k : ℚ) / 100) : round2 q = q := by
  subst hk
  have h : ((k : ℚ) / 100) * 100 = (k : ℚ) := by ring_nf
  rw [round2, h, roundHalfEven_intCast]

/-!
## Sort utility (`sorting_utils.py`)

`merge_sort(data, key, reverse)` splits at `mid = len(data) // 2`, sorts the
halves recursively and merges with `_merge`, whose comparison `leq(a, b)` is
`a <= b if not reverse else a >= b`. Keys live in an arbitrary linear order.
-/

/-- The comparison `leq` used by `_merge`. -/
def leq {κ : Type v} [LinearOrder κ] (reverse : Bool) (a b : κ) : Bool :=
  if reverse then decide (b ≤ a) else decide (a ≤ b)

/-- `_merge(left, right, key, reverse)`: the while loop repeatedly moves the
front of `left` when `leq(key(left[i]), key(right[j]))` holds, else the front
of `right`; the leftover tail is appended. -/
def _merge {α : Type u} {κ : Type v} [LinearOrder κ] (key : α → κ) (reverse : Bool) :
    List α → List α → List α
  | [], right => right
  | left, [] => left
  | a :: left, b :: right =>
    if leq reverse (key a) (key b) then a :: _merge key reverse left (b :: right)
    else b :: _merge key reverse (a :: left) right

/-- `merge_sort(data, key, reverse)` from `sorting_utils.py`. -/
def merge_sort {α : Type u} {κ : Type v} [LinearOrder κ]
    (key : α → κ) (reverse : Bool) (data : List α) : List α :=
  if h : data.length ≤ 1 then data
  else
    _merge key reverse (merge_sort key reverse (data.take (data.length / 2)))
      (merge_sort key reverse (data.drop (data.length / 2)))
termination_by data.length
decreasing_by
  · simp only [List.length_take]
    omega
  · simp only [List.length_drop]
    omega

theorem leq_total {κ : Type v} [LinearOrder κ] (reverse : Bool) (a b : κ) :
    leq reverse a b = true ∨ leq reverse b a = true := by
  cases reverse <;> simp [leq] <;> exact le_total _ _

theorem leq_trans {κ : Type v} [LinearOrder κ] {reverse : Bool} {a b c : κ}
    (hab : leq reverse a b = true) (hbc : leq reverse b c = true) :
    leq reverse a c = true := by
  cases reverse <;> simp [leq] at * <;>
    first
    | exact le_trans hab hbc
    | exact le_trans hbc hab

theorem leq_refl {κ : Type v} [LinearOrder κ] (reverse : Bool) (a : κ) :
    leq reverse a a = true := by
  cases reverse <;> simp [leq]

section SortLemmas

variable {α : Type u} {κ : Type v} [LinearOrder κ] {key : α → κ} {reverse : Bool}

/-- The ordering `_merge` establishes between adjacent output elements. -/
def keyLe (key : α → κ) (reverse : Bool) (x y : α) : Prop :=
  leq reverse (key x) (key y) = true

theorem _merge_perm (key : α → κ) (reverse : Bool) :
    ∀ l r : List α, (_merge key reverse l r).Perm (l ++ r) := by
  intro l
  induction l with
  | nil => intro r; simp [_merge]
  | cons a l ihl =>
    intro r
    induction r with
    | nil => simp [_merge]
    | cons b r ihr =>
      simp only [_merge]
      split
      · exact (ihl (b :: r)).cons a
      · exact (ihr.cons b).trans List.perm_middle.symm

theorem _merge_pairwise :
    ∀ {l r : List α}, l.Pairwise (keyLe key reverse) → r.Pairwise (keyLe key reverse) →
      (_merge key reverse l r).Pairwise (keyLe key reverse) := by
  intro l
  induction l with
  | nil => intro r _ hr; simpa [_merge] using hr
  | cons a l ihl =>
    intro r hl hr
    induction r with
    | nil => simpa [_merge] using hl
    | cons b r ihr =>
      rw [List.pairwise_cons] at hl hr
      simp only [_merge]
      split
      · rename_i hab
        refine List.Pairwise.cons ?_ (ihl hl.2 (List.pairwise_cons.mpr hr))
        intro z hz
        have hz' := ((_merge_perm key reverse l (b :: r)).mem_iff).mp hz
        rcases List.mem_append.mp hz' with h1 | h2
        · exact hl.1 z h1
        · rcases List.mem_cons.mp h2 with rfl | h3
          · exact hab
          · exact leq_trans hab (hr.1 z h3)
      · rename_i hab
        have hba : leq reverse (key b) (key a) = true := by
          rcases leq_total reverse (key a) (key b) with h | h
          · exact absurd h hab
          · exact h
        refine List.Pairwise.cons ?_ (ihr hr.2)
        intro z hz
        have hz' := ((_merge_perm key reverse (a :: l) r).mem_iff).mp hz
        rcases List.mem_append.mp hz' with h1 | h2
        · rcases List.mem_cons.mp h1 with rfl | h3
          · exact hba
          · exact leq_trans hba (hl.1 z h3)
        · exact hr.1 z h2

theorem _merge_filter (p : α → Bool)
    (hp : ∀ x y, p x = true → p y = true → leq reverse (key x) (key y) = true) :
    ∀ {l r : List α}, l.Pairwise (keyLe key reverse) → r.Pairwise (keyLe key reverse) →
      (_merge key reverse l r).filter p = l.filter p ++ r.filter p := by
  intro l
  induction l with
  | nil => intro r _ _; simp [_merge]
  | cons a l ihl =>
    intro r hl hr
    induction r with
    | nil => simp [_merge]
    | cons b r ihr =>
      rw [List.pairwise_cons] at hl hr
      simp only [_merge]
      split
      · rename_i hab
        have ih := ihl hl.2 (List.pairwise_cons.mpr hr)
        by_cases hpa : p a = true
        · simp [List.filter_cons, hpa, ih]
        · simp only [Bool.not_eq_true] at hpa
          simp [List.filter_cons, hpa, ih]
      · rename_i hab
        have ih := ihr hr.2
        by_cases hpb : p b = true
        · have hnone : (a :: l).filter p = [] := by
            rw [List.filter_eq_nil_iff]
            intro z hz hpz
            rcases List.mem_cons.mp hz with rfl | h3
            · exact hab (hp z b hpz hpb)
            · exact hab (leq_trans (hl.1 z h3) (hp z b hpz hpb))
          simp [List.filter_cons, hpb, ih, hnone]
        · simp only [Bool.not_eq_true] at hpb
          simp [List.filter_cons, hpb, ih]

theorem merge_sort_perm (key : α → κ) (reverse : Bool) (l : List α) :
    (merge_sort key reverse l).Perm l := by
  have H : ∀ n (l : List α), l.length = n → (merge_sort key reverse l).Perm l := by
    intro n
    induction n using Nat.strong_induction_on with
    | _ n ih =>
      intro l hl
      rw [merge_sort]
      split
      · exact List.Perm.refl l
      · rename_i hlen
        have h2 : 2 ≤ l.length := by omega
        have ht := ih (l.take (l.length / 2)).length
          (by simp only [List.length_take]; omega) _ rfl
        have hd := ih (l.drop (l.length / 2)).length
          (by simp only [List.length_drop]; omega) _ rfl
        exact ((_merge_perm key reverse _ _).trans (ht.append hd)).trans
          (by rw [List.take_append_drop])
  exact H l.length l rfl

theorem merge_sort_pairwise (key : α → κ) (reverse : Bool) (l : List α) :
    (merge_sort key reverse l).Pairwise (keyLe key reverse) := by
  have H : ∀ n (l : List α), l.length = n →
      (merge_sort key reverse l).Pairwise (keyLe key reverse) := by
    intro n
    induction n using Nat.strong_induction_on with
    | _ n ih =>
      intro l hl
      rw [merge_sort]
      split
      · rename_i hlen
        match l, hlen with
        | [], _ => exact List.Pairwise.nil
        | [a], _ => exact List.pairwise_singleton _ a
      · rename_i hlen
        have h2 : 2 ≤ l.length := by omega
        have ht := ih (l.take (l.length / 2)).length
          (by simp only [List.length_take]; omega) _ rfl
        have hd := ih (l.drop (l.length / 2)).length
          (by simp only [List.length_drop]; omega) _ rfl
        exact _merge_pairwise ht hd
  exact H l.length l rfl

theorem merge_sort_filter (key : α → κ) (reverse : Bool) (l : List α) (p : α → Bool)
    (hp : ∀ x y, p x = true → p y = true → leq reverse (key x) (key y) = true) :
    (merge_sort key reverse l).filter p = l.filter p := by
  have H : ∀ n (l : List α), l.length = n →
      (merge_sort key reverse l).filter p = l.filter p := by
    intro n
    induction n using Nat.strong_induction_on with
    | _ n ih =>
      intro l hl
      rw [merge_sort]
      split
      · rfl
      · rename_i hlen
        have h2 : 2 ≤ l.length := by omega
        have ht := ih (l.take (l.length / 2)).length
          (by simp only [List.length_take]; omega) _ rfl
        have hd := ih (l.drop (l.length / 2)).length
          (by simp only [List.length_drop]; omega) _ rfl
        have hps := merge_sort_pairwise key reverse (l.take (l.length / 2))
        have hpd := merge_sort_pairwise key reverse (l.drop (l.length / 2))
        rw [_merge_filter p hp hps hpd, ht, hd, ← List.filter_append,
          List.take_append_drop]
  exact H l.length l rfl

end SortLemmas

/-- C3: for all finite input sequences and key functions, `merge_sort` returns
a permutation of the input, non-decreasing under the key when `reverse` is
false and non-increasing when `reverse` is true, and stable: elements with
equal keys keep their relative order from the input, in both directions. -/
theorem merge_sort_correct {α : Type u} {κ : Type v} [LinearOrder κ]
    (key : α → κ) (reverse : Bool) (l : List α) :
    (merge_sort key reverse l).Perm l ∧
    (reverse = false → (merge_sort key false l).Pairwise (fun x y => key x ≤ key y)) ∧
    (reverse = true → (merge_sort key true l).Pairwise (fun x y => key y ≤ key x)) ∧
    (∀ k : κ, (merge_sort key reverse l).filter (fun x => decide (key x = k)) =
      l.filter (fun x => decide (key x = k))) := by
  refine ⟨merge_sort_perm key reverse l, ?_, ?_, ?_⟩
  · intro _
    exact (merge_sort_pairwise key false l).imp
      (fun h => by simpa [keyLe, leq] using h)
  · intro _
    exact (merge_sort_pairwise key true l).imp
      (fun h => by simpa [keyLe, leq] using h)
  · intro k
    refine merge_sort_filter key reverse l _ ?_
    intro x y hx hy
    rw [of_decide_eq_true hx, of_decide_eq_true hy]
    exact leq_refl reverse k

/-!
## Domain model (`models.py`)

Construction (`__post_init__`) and every setter validate; a failure raises
`ValidationError`, modelled with `Except`. A quirk of the source, kept
faithfully: `__post_init__` validates a string field only when the initial
value is truthy (non-empty), so an empty initial value skips its validator.
-/

inductive Err
  | validationError
  | fkViolation
deriving DecidableEq

/-- Character class `[A-Za-z0-9._%+-]` of `EMAIL_RE`. -/
def isEmailLocalChar (c : Char) : Bool :=
  c.isAlpha || c.isDigit || c = '.' || c = '_' || c = '%' || c = '+' || c = '-'

/-- Character class `[A-Za-z0-9.-]` of `EMAIL_RE`. -/
def isEmailDomainChar (c : Char) : Bool :=
  c.isAlpha || c.isDigit || c = '.' || c = '-'

/-- Anchored match of `EMAIL_RE = ^[A-Za-z0-9._%+-]+@[A-Za-z0-9.-]+\.[A-Za-z]{2,}$`:
the string splits as a non-empty local part, `@`, a non-empty domain part,
`.`, and an alphabetic top-level domain of length at least 2. -/
def emailMatch (s : Str) : Bool :=
  (List.range (s.length + 1)).any fun i =>
    (List.range (s.length + 1)).any fun j =>
      decide (0 < i) && (s.take i).all isEmailLocalChar &&
      (match s.drop i with
       | '@' :: rest =>
         decide (0 < j) && (rest.take j).all isEmailDomainChar &&
         (match rest.drop j with
          | '.' :: tld => decide (2 ≤ tld.length) && tld.all Char.isAlpha
          | _ => false)
       | _ => false)

/-- Character class `[0-9\s\-\(\)]` of `PHONE_RE`. -/
def isPhoneBodyChar (c : Char) : Bool :=
  c.isDigit || c.isWhitespace || c = '-' || c = '(' || c = ')'

/-- Anchored match of `PHONE_RE = ^\+?[0-9][0-9\s\-\(\)]{7,}$`. -/
def phoneMatch (s : Str) : Bool :=
  match s with
  | [] => false
  | c :: rest =>
    match (if c = '+' then rest else c :: rest) with
    | d :: tail => d.isDigit && decide (7 ≤ tail.length) && tail.all isPhoneBodyChar
    | [] => false

structure Customer where
  id : Option ℕ
  name : Str
  email : Str
  phone : Str
deriving DecidableEq

structure Product where
  id : Option ℕ
  title : Str
  price : ℚ
deriving DecidableEq

structure OrderItem where
  id : Option ℕ
  product_id : ℕ
  product_title : Str
  unit_price : ℚ
  quantity : ℤ
deriving DecidableEq

/-- `OrderItem.line_total = round(unit_price * quantity, 2)`. -/
def OrderItem.line_total (it : OrderItem) : ℚ := round2 (it.unit_price * it.quantity)

/-- `created_at` is carried as its ISO-8601 second-precision string; `add_order`
stores `created_at.isoformat(timespec="seconds")` and `import_json` parses it
back with `datetime.fromisoformat`, an identity round-trip on such strings. -/
structure Order where
  id : Option ℕ
  customer_id : ℕ
  created_at : Str
  items : List OrderItem
deriving DecidableEq

/-- `Order.total = round(sum(line_total for all items), 2)`. -/
def Order.total (o : Order) : ℚ := round2 ((o.items.map OrderItem.line_total).sum)

/-- `Order.add_item`: rejects `quantity < 1`, otherwise appends. -/
def Order.add_item (o : Order) (item : OrderItem) : Except Err Order :=
  if item.quantity < 1 then .error .validationError
  else .ok { o with items := o.items ++ [item] }

/-- The `Person.name` setter: strip, reject when empty. -/
def setName (value : Str) : Except Err Str :=
  let v := strip value
  if v = [] then .error .validationError else .ok v

/-- The `Customer.email` setter: strip, reject a non-empty value that does not
match `EMAIL_RE`. -/
def setEmail (value : Str) : Except Err Str :=
  let v := strip value
  if v ≠ [] ∧ emailMatch v = false then .error .validationError else .ok v

/-- The `Customer.phone` setter. -/
def setPhone (value : Str) : Except Err Str :=
  let v := strip value
  if v ≠ [] ∧ phoneMatch v = false then .error .validationError else .ok v

/-- The `Product.title` setter. -/
def setTitle (value : Str) : Except Err Str :=
  let v := strip value
  if v = [] then .error .validationError else .ok v

/-- The `Product.price` setter: reject negatives, store `round(v, 2)`. -/
def setPrice (value : ℚ) : Except Err ℚ :=
  if value < 0 then .error .validationError else .ok (round2 value)

/-- Constructing `Customer(_name=name, _email=email, _phone=phone)`:
`Person.__post_init__` runs the name setter only when `_name` is truthy, then
`Customer.__post_init__` runs the email and phone setters only when those
fields are truthy. -/
def customerMk (name email phone : Str) : Except Err Customer := do
  let n ← if name = [] then pure name else setName name
  let e ← if email = [] then pure email else setEmail email
  let p ← if phone = [] then pure phone else setPhone phone
  pure ⟨none, n, e, p⟩

/-- Constructing `Product(_title=title, _price=price)`: the title setter runs
only when `_title` is truthy; the price setter always runs. -/
def productMk (title : Str) (price : ℚ) : Except Err Product := do
  let t ← if title = [] then pure title else setTitle title
  let p ← setPrice price
  pure ⟨none, t, p⟩

/-!
## Persistence layer (`db.py`)

Rows are kept in insertion order. AUTOINCREMENT ids are assigned from a
per-table sequence and strictly increase along each list, so `ORDER BY id
DESC` is list reversal and `ORDER BY oi.id` is the stored order; the sequence
survives `DELETE FROM` (sqlite does not reset `sqlite_sequence`).
-/

structure CustomerRow where
  id : ℕ
  name : Str
  email : Str
  phone : Str
deriving DecidableEq

structure ProductRow where
  id : ℕ
  title : Str
  price : ℚ
deriving DecidableEq

structure OrderRow where
  id : ℕ
  customer_id : ℕ
  created_at : Str
deriving DecidableEq

structure ItemRow where
  id : ℕ
  order_id : ℕ
  product_id : ℕ
  unit_price : ℚ
  quantity : ℤ
deriving DecidableEq

structure Store where
  customers : List CustomerRow
  products : List ProductRow
  orders : List OrderRow
  order_items : List ItemRow
  seqCustomers : ℕ
  seqProducts : ℕ
  seqOrders : ℕ
  seqItems : ℕ
deriving DecidableEq

/-- A freshly initialised database: empty tables, AUTOINCREMENT starts at 1. -/
def emptyStore : Store := ⟨[], [], [], [], 1, 1, 1, 1⟩

/-- `add_customer`: INSERT, commit, return the assigned id. -/
def add_customer (c : Customer) (st : Store) : ℕ × Store :=
  (st.seqCustomers,
   { st with
     customers := st.customers ++ [⟨st.seqCustomers, c.name, c.email, c.phone⟩],
     seqCustomers := st.seqCustomers + 1 })

/-- `add_product`: INSERT, commit, return the assigned id. -/
def add_product (p : Product) (st : Store) : ℕ × Store :=
  (st.seqProducts,
   { st with
     products := st.products ++ [⟨st.seqProducts, p.title, p.price⟩],
     seqProducts := st.seqProducts + 1 })

/-- `list_customers`: `SELECT * FROM customers ORDER BY id DESC`. -/
def list_customers (st : Store) : List CustomerRow := st.customers.reverse

/-- `list_products`: `SELECT * FROM products ORDER BY id DESC`. -/
def list_products (st : Store) : List ProductRow := st.products.reverse

/-- One row of `list_orders`. -/
structure OrderListRow where
  id : ℕ
  customer_id : ℕ
  customer_name : Str
  created_at : Str
  total : ℚ
deriving DecidableEq

/-- The aggregated total of one `list_orders` group:
`IFNULL(SUM(oi.unit_price * oi.quantity), 0)` over the order's items. -/
def sqlOrderTotal (st : Store) (oid : ℕ) : ℚ :=
  ((st.order_items.filter (fun it => decide (it.order_id = oid))).map
    (fun it => it.unit_price * (it.quantity : ℚ))).sum

/-- `list_orders`: orders joined with their customer (the inner join drops an
order whose customer row is missing), grouped by `o.id` with the aggregated
total, newest (highest id) first. -/
def list_orders (st : Store) : List OrderListRow :=
  st.orders.reverse.filterMap fun o =>
    (st.customers.find? (fun c => decide (c.id = o.customer_id))).map fun c =>
      ⟨o.id, o.customer_id, c.name, o.created_at, sqlOrderTotal st o.id⟩

/-- One row of `get_order_items` (the fields of the `OrderItem` it builds). -/
structure ItemListRow where
  id : ℕ
  product_id : ℕ
  product_title : Str
  unit_price : ℚ
  quantity : ℤ
deriving DecidableEq

/-- `get_order_items`: the order's item rows in stored (id) order, inner
joined with `products` for the current title; an item whose product row is
missing is dropped by the join. -/
def get_order_items (st : Store) (order_id : ℕ) : List ItemListRow :=
  (st.order_items.filter (fun it => decide (it.order_id = order_id))).filterMap fun it =>
    (st.products.find? (fun p => decide (p.id = it.product_id))).map fun p =>
      ⟨it.id, it.product_id, p.title, it.unit_price, it.quantity⟩

/-- The item INSERTs of `add_order`, checking the `product_id` foreign key
(`PRAGMA foreign_keys = ON`); the `order_id` key refers to the header just
inserted. -/
def insertItemRows (oid : ℕ) : List OrderItem → Store → Except Err Store
  | [], st => .ok st
  | it :: rest, st =>
    if (st.products.find? (fun p => decide (p.id = it.product_id))).isNone then
      .error .fkViolation
    else
      insertItemRows oid rest
        { st with
          order_items := st.order_items ++
            [⟨st.seqItems, oid, it.product_id, it.unit_price, it.quantity⟩],
          seqItems := st.seqItems + 1 }

/-- `add_order` as observed through the durable (committed) store: the header
INSERT (checking the `customer_id` foreign key), one INSERT per item in
attachment order, then a single commit; a foreign-key failure surfaces and
nothing is committed. `addOrderConn` below models the connection-level view. -/
def add_order (o : Order) (st : Store) : Except Err (ℕ × Store) :=
  if (st.customers.find? (fun c => decide (c.id = o.customer_id))).isNone then
    .error .fkViolation
  else
    (insertItemRows st.seqOrders o.items
      { st with
        orders := st.orders ++ [⟨st.seqOrders, o.customer_id, o.created_at⟩],
        seqOrders := st.seqOrders + 1 }).map (fun st' => (st.seqOrders, st'))

/-- The sqlite connection: `committed` is the durable database, `current` what
the connection's own reads observe (the implicit transaction holds the
uncommitted writes; the code contains no rollback). -/
structure Conn where
  committed : Store
  current : Store
deriving DecidableEq

/-- The item INSERTs as executed on the connection: on a foreign-key failure
the loop stops with the already-executed INSERTs still pending. -/
def insertItemRowsPartial (oid : ℕ) : List OrderItem → Store → Store × Option Err
  | [], st => (st, none)
  | it :: rest, st =>
    if (st.products.find? (fun p => decide (p.id = it.product_id))).isNone then
      (st, some .fkViolation)
    else
      insertItemRowsPartial oid rest
        { st with
          order_items := st.order_items ++
            [⟨st.seqItems, oid, it.product_id, it.unit_price, it.quantity⟩],
          seqItems := st.seqItems + 1 }

/-- `add_order` at connection level: header INSERT, item INSERTs, then one
`commit`. An exception propagates at once; the INSERTs already executed stay
pending on the connection (no rollback), and only `commit` publishes. -/
def addOrderConn (o : Order) (conn : Conn) : Except Err ℕ × Conn :=
  if (conn.current.customers.find? (fun c => decide (c.id = o.customer_id))).isNone then
    (.error .fkViolation, conn)
  else
    match insertItemRowsPartial conn.current.seqOrders o.items
        { conn.current with
          orders := conn.current.orders ++
            [⟨conn.current.seqOrders, o.customer_id, o.created_at⟩],
          seqOrders := conn.current.seqOrders + 1 } with
    | (stF, some e) => (.error e, { conn with current := stF })
    | (stF, none) => (.ok conn.current.seqOrders, ⟨stF, stF⟩)

/-!
## Import / export (`db.py`)

The JSON document of `export_json`, and `import_json` consuming it. The
document's `customers` and `products` entries carry exactly the fields of the
corresponding rows. `created_at` strings are second-precision ISO-8601, on
which `datetime.fromisoformat` followed by `isoformat(timespec="seconds")`
is the identity, so the string is carried through unchanged.
-/

/-- One `items` entry of an exported order (`OrderItem.to_dict()`). -/
structure ExItem where
  id : ℕ
  product_id : ℕ
  product_title : Str
  unit_price : ℚ
  quantity : ℤ
  line_total : ℚ
deriving DecidableEq

/-- One `orders` entry of the export document. -/
structure ExOrder where
  id : ℕ
  customer_id : ℕ
  created_at : Str
  total : ℚ
  items : List ExItem
deriving DecidableEq

/-- The full export document. -/
structure Doc where
  customers : List CustomerRow
  products : List ProductRow
  orders : List ExOrder
deriving DecidableEq

/-- `export_json`. -/
def export_json (st : Store) : Doc :=
  { customers := list_customers st
    products := list_products st
    orders := (list_orders st).map fun o =>
      { id := o.id
        customer_id := o.customer_id
        created_at := o.created_at
        total := o.total
        items := (get_order_items st o.id).map fun it =>
          ⟨it.id, it.product_id, it.product_title, it.unit_price, it.quantity,
            round2 (it.unit_price * (it.quantity : ℚ))⟩ } }

/-- `cust_map.get(k, k)` / `prod_map.get(k, k)`: remap lookup falling back to
the identifier itself when it is absent from the table. -/
def lookupD (m : List (ℕ × ℕ)) (k : ℕ) : ℕ :=
  match m.find? (fun e => decide (e.1 = k)) with
  | some e => e.2
  | none => k

/-- The customers loop of `import_json`: re-validate, insert, record
`old id → new id` (`int(c.get("id") or new_id)` falls back to the new id when
the document id is falsy, i.e. 0). The mapping is an association list with
the newest binding in front, matching dict overwrite semantics. -/
def importCustomers : List CustomerRow → Store → List (ℕ × ℕ) →
    Except Err (Store × List (ℕ × ℕ))
  | [], st, m => .ok (st, m)
  | c :: cs, st, m => do
    let cust ← customerMk c.name c.email c.phone
    let (newId, st') := add_customer cust st
    importCustomers cs st' ((if c.id = 0 then newId else c.id, newId) :: m)

/-- The products loop of `import_json`. -/
def importProducts : List ProductRow → Store → List (ℕ × ℕ) →
    Except Err (Store × List (ℕ × ℕ))
  | [], st, m => .ok (st, m)
  | p :: ps, st, m => do
    let prod ← productMk p.title p.price
    let (newId, st') := add_product prod st
    importProducts ps st' ((if p.id = 0 then newId else p.id, newId) :: m)

/-- The per-order items loop: rebuild each `OrderItem` with the remapped
product id and attach it through `Order.add_item`. -/
def buildItems (prodMap : List (ℕ × ℕ)) : List ExItem → Order → Except Err Order
  | [], o => .ok o
  | it :: rest, o => do
    let o' ← o.add_item
      ⟨none, lookupD prodMap it.product_id, it.product_title, it.unit_price, it.quantity⟩
    buildItems prodMap rest o'

/-- The orders loop of `import_json`: build each order with the remapped
customer id and its rebuilt items, then `add_order` it. -/
def importOrders (custMap prodMap : List (ℕ × ℕ)) :
    List ExOrder → Store → Except Err Store
  | [], st => .ok st
  | o :: os, st => do
    let ord ← buildItems prodMap o.items
      ⟨none, lookupD custMap o.customer_id, o.created_at, []⟩
    let (_, st') ← add_order ord st
    importOrders custMap prodMap os st'

def clearOrderItems (st : Store) : Store := { st with order_items := [] }

def clearOrders (st : Store) : Store := { st with orders := [] }

def clearProducts (st : Store) : Store := { st with products := [] }

def clearCustomers (st : Store) : Store := { st with customers := [] }

/-- `_clear_all`: `DELETE FROM order_items; orders; products; customers;`. -/
def clearAll (st : Store) : Store :=
  clearCustomers (clearProducts (clearOrders (clearOrderItems st)))

/-- `import_json(path, clear_first)`. -/
def import_json (doc : Doc) (clear_first : Bool) (st : Store) : Except Err Store := do
  let st0 := if clear_first then clearAll st else st
  let (st1, custMap) ← importCustomers doc.customers st0 []
  let (st2, prodMap) ← importProducts doc.products st1 []
  importOrders custMap prodMap doc.orders st2

/-!
## Analytics aggregation (`analysis.py`)

`build_dataframes` materialises `orders_df` from `list_orders` and `items_df`
as one row per `get_order_items` result tagged with its order id.
`customer_relationship_graph` maps each item row to its customer name through
`orders_df`, collects the set of distinct purchased product ids per name, and
adds one weighted edge per unordered pair of names whose sets intersect.
pandas `groupby` enumerates its keys in sorted order; the groupings below
keep first-occurrence order instead — same keys, same groups, same counts and
weights, only the enumeration order differs, and no claim concerns it.
-/

/-- The `(order_id, product_id)` observations of `items_df`. -/
def analysisItems (st : Store) : List (ℕ × ℕ) :=
  (list_orders st).flatMap fun o =>
    (get_order_items st o.id).map fun it => (o.id, it.product_id)

/-- The `order_to_customer` mapping (`orders_df.set_index("id")["customer_name"]`).
Every order id fed to it comes from `list_orders` itself, so the fallback for a
missing id is never exercised. -/
def orderToCustomer (st : Store) (oid : ℕ) : Str :=
  (((list_orders st).find? (fun o => decide (o.id = oid))).map
    (fun o => o.customer_name)).getD []

/-- Record one purchased product id under a customer name
(`groupby("customer_name")["product_id"].apply(set)`). -/
def insertGrouped (key : Str) (pid : ℕ) :
    List (Str × Finset ℕ) → List (Str × Finset ℕ)
  | [] => [(key, {pid})]
  | (k, s) :: rest =>
    if k = key then (k, insert pid s) :: rest else (k, s) :: insertGrouped key pid rest

/-- `cust_products`: customer name → set of distinct purchased product ids. -/
def custProducts (st : Store) : List (Str × Finset ℕ) :=
  (analysisItems st).foldl
    (fun acc op => insertGrouped (orderToCustomer st op.1) op.2 acc) []

/-- The graph's nodes: `cust_products.keys()`. -/
def graphNodes (st : Store) : List Str := (custProducts st).map Prod.fst

/-- All position pairs `(cust_list[i], cust_list[j])` with `i < j`. -/
def pairsOf {α : Type u} : List α → List (α × α)
  | [] => []
  | x :: xs => (xs.map (fun y => (x, y))) ++ pairsOf xs

/-- The graph's weighted edges: one per pair of customers sharing at least one
product, weighted by the number of shared distinct products. -/
def relationshipEdges (cps : List (Str × Finset ℕ)) : List (Str × Str × ℕ) :=
  (pairsOf cps).filterMap fun ab =>
    if (ab.1.2 ∩ ab.2.2).Nonempty then some (ab.1.1, ab.2.1, (ab.1.2 ∩ ab.2.2).card)
    else none

/-- The edges of `customer_relationship_graph` for a store. -/
def graphEdges (st : Store) : List (Str × Str × ℕ) :=
  relationshipEdges (custProducts st)

/-- Count one order under a customer name
(`orders_df.groupby("customer_name")["id"].count()`). -/
def bumpCount (key : Str) : List (Str × ℕ) → List (Str × ℕ)
  | [] => [(key, 1)]
  | (k, n) :: rest =>
    if k = key then (k, n + 1) :: rest else (k, n) :: bumpCount key rest

/-- Orders per customer name, the grouped counts behind the top-5 ranking
(`sort_values(ascending=False).head(5)` is applied to these). -/
def orderCountsByName (st : Store) : List (Str × ℕ) :=
  (list_orders st).foldl (fun acc o => bumpCount o.customer_name acc) []

/-- Association-list lookup by key. -/
def lookupName {β : Type v} (m : List (Str × β)) (k : Str) : Option β :=
  (m.find? (fun e => decide (e.1 = k))).map Prod.snd

/-!
## Rounding helpers
-/

theorem roundHalfEven_eq_of (q : ℚ) (f : ℤ) (hf : ⌊q⌋ = f) (hlt : q - f < 1/2) :
    roundHalfEven q = f := by
  simp only [roundHalfEven, hf]
  rw [if_pos hlt]

theorem round2_eq (q : ℚ) (f : ℤ) (hf : ⌊q * 100⌋ = f) (hlt : q * 100 - f < 1/2) :
    round2 q = (f : ℚ) / 100 := by
  rw [round2, roundHalfEven_eq_of _ f hf hlt]

/-- Every `round(·, 2)` result is an integer number of hundredths. -/
theorem round2_twoDec (q : ℚ) : ∃ k : ℤ, round2 q = (k : ℚ) / 100 :=
  ⟨roundHalfEven (q * 100), rfl⟩

/-- A sum of hundredths is a number of hundredths. -/
theorem sum_twoDec {l : List ℚ} (h : ∀ q ∈ l, ∃ k : ℤ, q = (k : ℚ) / 100) :
    ∃ K : ℤ, l.sum = (K : ℚ) / 100 := by
  induction l with
  | nil => exact ⟨0, by simp⟩
  | cons a l ih =>
    obtain ⟨k, hk⟩ := h a (List.mem_cons_self a l)
    obtain ⟨K, hK⟩ := ih (fun q hq => h q (List.mem_cons_of_mem a hq))
    refine ⟨k + K, ?_⟩
    rw [List.sum_cons, hk, hK]
    push_cast
    ring

/-!
## C2 — Customer construction
-/

/-- C2: contrary to the claim (and to the repository's own
`test_customer_validation`), constructing a `Customer` with `_name=""`
succeeds: `Person.__post_init__` guards the name validation behind the
truthiness of `_name`, so an empty initial name skips the validator and a
`Customer` whose name is empty is produced instead of `ValidationError`. -/
theorem customer_empty_name_accepted :
    customerMk [] [] [] = .ok ⟨none, [], [], []⟩ := rfl

/-!
## C1 — `list_orders` totals vs `Order.total`
-/

/-- The `Order.total` the domain model computes for the stored line data of
one order: rebuild the `OrderItem`s from the rows and apply `Order.total`,
i.e. `round(sum(round(unit_price * quantity, 2) per line), 2)`. -/
def modelOrderTotal (st : Store) (oid : ℕ) : ℚ :=
  Order.total ⟨none, 0, [],
    (st.order_items.filter (fun it => decide (it.order_id = oid))).map
      (fun it => ⟨some it.id, it.product_id, [], it.unit_price, it.quantity⟩)⟩

/-- A store holding one order whose single line has unit price 0.333. -/
def c1BadStore : Store :=
  ⟨[⟨1, ['A'], [], []⟩], [⟨1, ['P'], 1⟩], [⟨1, 1, ['t']⟩],
   [⟨1, 1, 1, 333/1000, 1⟩], 2, 2, 2, 2⟩

/-- C1 counterexample: for a stored line with unit price 0.333 and quantity 1,
`list_orders` returns total 0.333 (the raw SQL sum, no rounding) while
`Order.total` on the same line data gives 0.33 — the two disagree. -/
theorem list_orders_total_counterexample :
    (list_orders c1BadStore).map (fun r => (r.id, r.total)) = [(1, 333/1000)] ∧
    modelOrderTotal c1BadStore 1 = 33/100 ∧
    sqlOrderTotal c1BadStore 1 ≠ modelOrderTotal c1BadStore 1 := by
  have hr : round2 ((333 : ℚ)/1000) = 33/100 := by
    have h33 : ((33 : ℤ) : ℚ) / 100 = 33/100 := by norm_num
    rw [← h33]
    refine round2_eq _ 33 ?_ (by push_cast; norm_num)
    rw [Int.floor_eq_iff]
    constructor <;> push_cast <;> norm_num
  have h2 : round2 ((33 : ℚ)/100) = 33/100 := by
    have h33 : ((33 : ℤ) : ℚ) / 100 = 33/100 := by norm_num
    rw [← h33, round2_eq_self 33 rfl]
  have hsql : sqlOrderTotal c1BadStore 1 = 333/1000 := by
    simp [sqlOrderTotal, c1BadStore]
  have hlt : OrderItem.line_total ⟨some 1, 1, [], 333/1000, 1⟩ = 33/100 := by
    simp only [OrderItem.line_total]
    rw [show ((333 : ℚ)/1000 * ((1 : ℤ) : ℚ)) = 333/1000 by push_cast; ring]
    exact hr
  have hmodel : modelOrderTotal c1BadStore 1 = 33/100 := by
    simp [modelOrderTotal, c1BadStore, Order.total, hlt, h2]
  refine ⟨?_, hmodel, ?_⟩
  · simp [list_orders, c1BadStore, sqlOrderTotal]
  · rw [hsql, hmodel]
    norm_num

/-- C1 (amended): the total `list_orders` returns is the raw SQL aggregate
`IFNULL(SUM(unit_price * quantity), 0)` — zero for an order with no items —
with no per-line and no final rounding; it equals the `Order.total` the
domain model would compute for the same line data whenever every line's raw
product `unit_price * quantity` already has at most two decimal places (in
particular for all two-decimal unit prices), but not in general. -/
theorem list_orders_total (st : Store) (oid : ℕ)
    (h2dec : ∀ it ∈ st.order_items.filter (fun it => decide (it.order_id = oid)),
      round2 (it.unit_price * (it.quantity : ℚ)) = it.unit_price * (it.quantity : ℚ)) :
    (∀ r ∈ list_orders st, r.total = sqlOrderTotal st r.id) ∧
    sqlOrderTotal st oid = modelOrderTotal st oid ∧
    (st.order_items.filter (fun it => decide (it.order_id = oid)) = [] →
      sqlOrderTotal st oid = 0) := by
  refine ⟨?_, ?_, ?_⟩
  · intro r hr
    simp only [list_orders, List.mem_filterMap, Option.map_eq_some'] at hr
    obtain ⟨o, _, c, _, rfl⟩ := hr
    rfl
  · unfold modelOrderTotal Order.total sqlOrderTotal
    rw [List.map_map]
    have hline : ∀ it ∈ st.order_items.filter (fun it => decide (it.order_id = oid)),
        (OrderItem.line_total ∘ fun it : ItemRow =>
          (⟨some it.id, it.product_id, [], it.unit_price, it.quantity⟩ : OrderItem)) it =
        it.unit_price * (it.quantity : ℚ) := by
      intro it hit
      simpa [OrderItem.line_total] using h2dec it hit
    rw [List.map_congr_left hline]
    have hall : ∀ q ∈ (st.order_items.filter (fun it => decide (it.order_id = oid))).map
        (fun it => it.unit_price * (it.quantity : ℚ)), ∃ k : ℤ, q = (k : ℚ) / 100 := by
      intro q hq
      simp only [List.mem_map] at hq
      obtain ⟨it, hit, rfl⟩ := hq
      exact ⟨roundHalfEven (it.unit_price * (it.quantity : ℚ) * 100),
        by rw [← round2, h2dec it hit]⟩
    obtain ⟨K, hK⟩ := sum_twoDec hall
    rw [round2_eq_self K hK]
  · intro h
    simp [sqlOrderTotal, h]

/-- A store holding one order with one two-decimal line (50.00 × 2). -/
def c1Store : Store :=
  ⟨[⟨1, ['A'], [], []⟩], [⟨1, ['P'], 50⟩], [⟨1, 1, ['t']⟩],
   [⟨1, 1, 1, 50, 2⟩], 2, 2, 2, 2⟩

theorem list_orders_total_witness :
    (∀ r ∈ list_orders c1Store, r.total = sqlOrderTotal c1Store r.id) ∧
    sqlOrderTotal c1Store 1 = modelOrderTotal c1Store 1 ∧
    (c1Store.order_items.filter (fun it => decide (it.order_id = 1)) = [] →
      sqlOrderTotal c1Store 1 = 0) := by
  refine list_orders_total c1Store 1 ?_
  intro it hit
  have heq : it = ⟨1, 1, 1, 50, 2⟩ := by simpa [c1Store] using hit
  subst heq
  exact round2_eq_self 10000 (by push_cast; norm_num)

/-!
## C6 — `get_order_items`
-/

theorem get_order_items_aux (st : Store) (oid : ℕ) : ∀ l : List ItemRow,
    (((l.filter (fun it => decide (it.order_id = oid))).filterMap fun it =>
        (st.products.find? (fun p => decide (p.id = it.product_id))).map fun p =>
          (⟨it.id, it.product_id, p.title, it.unit_price, it.quantity⟩ : ItemListRow)).map
      fun iv => (iv.id, iv.product_id, iv.unit_price, iv.quantity)) =
    ((l.filter fun it => decide (it.order_id = oid) &&
        (st.products.find? fun p => decide (p.id = it.product_id)).isSome).map
      fun it => (it.id, it.product_id, it.unit_price, it.quantity)) := by
  intro l
  induction l with
  | nil => rfl
  | cons it l ih =>
    by_cases hq : it.order_id = oid
    · cases hfind : st.products.find? fun p => decide (p.id = it.product_id) with
      | none => simpa [List.filter_cons, hq, hfind] using ih
      | some p => simpa [List.filter_cons, hq, hfind] using ih
    · simpa [List.filter_cons, hq] using ih

/-- A store with one order whose single item references product id 99, for
which no product row exists. -/
def danglingStore : Store :=
  ⟨[⟨1, ['A'], [], []⟩], [], [⟨1, 1, []⟩], [⟨1, 1, 99, 1, 1⟩], 2, 1, 2, 2⟩

/-- C6 counterexample: an item whose referenced product does not exist is
silently dropped by the inner join of `get_order_items` — the stored item is
not returned at all, and no snapshot-title fallback exists (the order_items
schema stores no title). -/
theorem get_order_items_counterexample :
    danglingStore.order_items ≠ [] ∧ get_order_items danglingStore 1 = [] := by
  constructor
  · simp [danglingStore]
  · rfl

/-- C6 (amended): for every order identifier, `get_order_items` returns, in
stored (insertion = id) order, exactly those stored items of the order whose
referenced product currently exists, annotated with that product's current
title; an item whose product reference dangles is omitted — the storage layer
keeps no title snapshot to fall back on. -/
theorem get_order_items_characterisation (st : Store) (oid : ℕ) :
    ((get_order_items st oid).map
        (fun iv => (iv.id, iv.product_id, iv.unit_price, iv.quantity)) =
      ((st.order_items.filter fun it => decide (it.order_id = oid) &&
          (st.products.find? fun p => decide (p.id = it.product_id)).isSome).map
        fun it => (it.id, it.product_id, it.unit_price, it.quantity))) ∧
    (∀ iv ∈ get_order_items st oid, ∃ p ∈ st.products,
      p.id = iv.product_id ∧ iv.product_title = p.title) := by
  constructor
  · exact get_order_items_aux st oid st.order_items
  · intro iv hiv
    simp only [get_order_items, List.mem_filterMap, Option.map_eq_some'] at hiv
    obtain ⟨it, _, p, hfind, rfl⟩ := hiv
    refine ⟨p, List.mem_of_find?_eq_some hfind, ?_, rfl⟩
    have := List.find?_some hfind
    exact of_decide_eq_true this

/-!
## C4 — relationship-graph edges
-/

theorem mem_pairsOf_sub {α : Type u} : ∀ {l : List α} {a b : α},
    (a, b) ∈ pairsOf l → a ∈ l ∧ b ∈ l := by
  intro l
  induction l with
  | nil => intro a b h; simp [pairsOf] at h
  | cons x xs ih =>
    intro a b h
    simp only [pairsOf, List.mem_append, List.mem_map] at h
    rcases h with ⟨y, hy, heq⟩ | h
    · obtain ⟨rfl, rfl⟩ := Prod.mk.injEq .. ▸ heq
      exact ⟨List.mem_cons_self .., List.mem_cons_of_mem _ hy⟩
    · obtain ⟨ha, hb⟩ := ih h
      exact ⟨List.mem_cons_of_mem _ ha, List.mem_cons_of_mem _ hb⟩

theorem pairsOf_complete {α : Type u} : ∀ {l : List α} {a b : α},
    a ∈ l → b ∈ l → a ≠ b → (a, b) ∈ pairsOf l ∨ (b, a) ∈ pairsOf l := by
  intro l
  induction l with
  | nil => intro a b h; simp at h
  | cons x xs ih =>
    intro a b ha hb hne
    rcases List.mem_cons.mp ha with rfl | ha'
    · rcases List.mem_cons.mp hb with rfl | hb'
      · exact absurd rfl hne
      · exact Or.inl (by
          simp only [pairsOf, List.mem_append, List.mem_map]
          exact Or.inl ⟨b, hb', rfl⟩)
    · rcases List.mem_cons.mp hb with rfl | hb'
      · exact Or.inr (by
          simp only [pairsOf, List.mem_append, List.mem_map]
          exact Or.inl ⟨a, ha', rfl⟩)
      · rcases ih ha' hb' hne with h | h
        · exact Or.inl (by
            simp only [pairsOf, List.mem_append, List.mem_map]
            exact Or.inr h)
        · exact Or.inr (by
            simp only [pairsOf, List.mem_append, List.mem_map]
            exact Or.inr h)

theorem mem_relationshipEdges {cps : List (Str × Finset ℕ)} {e : Str × Str × ℕ} :
    e ∈ relationshipEdges cps ↔ ∃ ab ∈ pairsOf cps,
      (ab.1.2 ∩ ab.2.2).Nonempty ∧ e = (ab.1.1, ab.2.1, (ab.1.2 ∩ ab.2.2).card) := by
  unfold relationshipEdges
  rw [List.mem_filterMap]
  constructor
  · rintro ⟨ab, hmem, hsome⟩
    by_cases hne : (ab.1.2 ∩ ab.2.2).Nonempty
    · rw [if_pos hne] at hsome
      exact ⟨ab, hmem, hne, (Option.some.injEq .. ▸ hsome).symm⟩
    · rw [if_neg hne] at hsome
      exact absurd hsome (by simp)
  · rintro ⟨ab, hmem, hne, rfl⟩
    exact ⟨ab, hmem, by rw [if_pos hne]⟩

/-- C4: in the relationship graph, for every pair of distinct customers an
edge is present iff their sets of distinct purchased product ids intersect,
and every such edge's weight is the size of the intersection. -/
theorem relationship_edges_weights (cps : List (Str × Finset ℕ))
    (hnd : (cps.map Prod.fst).Nodup) (a b : Str × Finset ℕ)
    (ha : a ∈ cps) (hb : b ∈ cps) (hab : a.1 ≠ b.1) :
    ((∃ w, (a.1, b.1, w) ∈ relationshipEdges cps ∨
        (b.1, a.1, w) ∈ relationshipEdges cps) ↔ (a.2 ∩ b.2).Nonempty) ∧
    (∀ w, (a.1, b.1, w) ∈ relationshipEdges cps ∨
        (b.1, a.1, w) ∈ relationshipEdges cps → w = (a.2 ∩ b.2).card) := by
  have hinj := List.inj_on_of_nodup_map hnd
  have hresolve : ∀ w, (a.1, b.1, w) ∈ relationshipEdges cps →
      (a.2 ∩ b.2).Nonempty ∧ w = (a.2 ∩ b.2).card := by
    intro w hw
    obtain ⟨ab, hmem, hne, heq⟩ := mem_relationshipEdges.mp hw
    obtain ⟨h1, h2⟩ := mem_pairsOf_sub (l := cps) (a := ab.1) (b := ab.2) (by
      cases ab; exact hmem)
    obtain ⟨hk1, hk2, hkw⟩ : a.1 = ab.1.1 ∧ b.1 = ab.2.1 ∧ w = (ab.1.2 ∩ ab.2.2).card := by
      have := Prod.mk.injEq .. ▸ heq
      obtain ⟨e1, e2⟩ := this
      have := Prod.mk.injEq .. ▸ e2
      exact ⟨e1, this.1, this.2⟩
    have hea : ab.1 = a := hinj h1 ha hk1.symm
    have heb : ab.2 = b := hinj h2 hb hk2.symm
    rw [hea, heb] at hne hkw
    exact ⟨hne, hkw⟩
  have hresolve' : ∀ w, (b.1, a.1, w) ∈ relationshipEdges cps →
      (a.2 ∩ b.2).Nonempty ∧ w = (a.2 ∩ b.2).card := by
    intro w hw
    obtain ⟨ab, hmem, hne, heq⟩ := mem_relationshipEdges.mp hw
    obtain ⟨h1, h2⟩ := mem_pairsOf_sub (l := cps) (a := ab.1) (b := ab.2) (by
      cases ab; exact hmem)
    obtain ⟨hk1, hk2, hkw⟩ : b.1 = ab.1.1 ∧ a.1 = ab.2.1 ∧ w = (ab.1.2 ∩ ab.2.2).card := by
      have := Prod.mk.injEq .. ▸ heq
      obtain ⟨e1, e2⟩ := this
      have := Prod.mk.injEq .. ▸ e2
      exact ⟨e1, this.1, this.2⟩
    have hea : ab.1 = b := hinj h1 hb hk1.symm
    have heb : ab.2 = a := hinj h2 ha hk2.symm
    rw [hea, heb] at hne hkw
    rw [Finset.inter_comm] at hne hkw
    exact ⟨hne, hkw⟩
  constructor
  · constructor
    · rintro ⟨w, hw | hw⟩
      · exact (hresolve w hw).1
      · exact (hresolve' w hw).1
    · intro hne
      have hne' : a ≠ b := fun h => hab (h ▸ rfl)
      rcases pairsOf_complete ha hb hne' with hp | hp
      · exact ⟨(a.2 ∩ b.2).card, Or.inl (mem_relationshipEdges.mpr ⟨(a, b), hp, hne, rfl⟩)⟩
      · refine ⟨(a.2 ∩ b.2).card, Or.inr (mem_relationshipEdges.mpr ⟨(b, a), hp, ?_, ?_⟩)⟩
        · rwa [Finset.inter_comm]
        · rw [Finset.inter_comm]
  · rintro w (hw | hw)
    · exact (hresolve w hw).2
    · exact (hresolve' w hw).2

/-- The spec's worked example: A bought products 1 and 2, B bought 2 and 3,
C bought 4. -/
def exCps : List (Str × Finset ℕ) := [(['A'], {1, 2}), (['B'], {2, 3}), (['C'], {4})]

theorem relationship_edges_weights_witness :
    ((∃ w, (['A'], ['B'], w) ∈ relationshipEdges exCps ∨
        (['B'], ['A'], w) ∈ relationshipEdges exCps) ↔
      (({1, 2} : Finset ℕ) ∩ {2, 3}).Nonempty) ∧
    (∀ w, (['A'], ['B'], w) ∈ relationshipEdges exCps ∨
        (['B'], ['A'], w) ∈ relationshipEdges exCps →
      w = (({1, 2} : Finset ℕ) ∩ {2, 3}).card) ∧
    relationshipEdges exCps = [(['A'], ['B'], 1)] ∧
    (∀ e ∈ relationshipEdges exCps, e.1 ≠ ['C'] ∧ e.2.1 ≠ ['C']) := by
  obtain ⟨h1, h2⟩ := relationship_edges_weights exCps (by decide) (['A'], {1, 2})
    (['B'], {2, 3}) (by decide) (by decide) (by decide)
  exact ⟨h1, h2, by decide, by decide⟩

/-!
## C7 — relationship-graph nodes
-/

theorem mem_keys_insertGrouped (key : Str) (pid : ℕ) :
    ∀ (acc : List (Str × Finset ℕ)) (x : Str),
      (x ∈ (insertGrouped key pid acc).map Prod.fst ↔ x ∈ acc.map Prod.fst ∨ x = key) := by
  intro acc
  induction acc with
  | nil => intro x; simp [insertGrouped]
  | cons e rest ih =>
    intro x
    obtain ⟨k, s⟩ := e
    simp only [insertGrouped]
    split
    · rename_i hk
      subst hk
      simp only [List.map_cons, List.mem_cons]
      tauto
    · rename_i hk
      simp only [List.map_cons, List.mem_cons, ih x]
      tauto

theorem mem_keys_groupFold (st : Store) :
    ∀ (l : List (ℕ × ℕ)) (acc : List (Str × Finset ℕ)) (x : Str),
      (x ∈ (l.foldl (fun acc op => insertGrouped (orderToCustomer st op.1) op.2 acc)
          acc).map Prod.fst ↔
        x ∈ acc.map Prod.fst ∨ ∃ op ∈ l, orderToCustomer st op.1 = x) := by
  intro l
  induction l with
  | nil => intro acc x; simp
  | cons op l ih =>
    intro acc x
    rw [List.foldl_cons, ih, mem_keys_insertGrouped]
    simp only [List.mem_cons]
    constructor
    · rintro ((h | rfl) | ⟨op', hop', rfl⟩)
      · exact Or.inl h
      · exact Or.inr ⟨op, Or.inl rfl, rfl⟩
      · exact Or.inr ⟨op', Or.inr hop', rfl⟩
    · rintro (h | ⟨op', (rfl | hop'), rfl⟩)
      · exact Or.inl (Or.inl h)
      · exact Or.inl (Or.inr rfl)
      · exact Or.inr ⟨op', hop', rfl⟩

/-- C7 (amended): the graph's node set is exactly the set of customer names
attached, through the order list, to at least one item row that survives the
read joins — a customer all of whose orders have no (resolvable) items is not
a node. Nodes and edges are plain functions of the stored data, hence
deterministic. -/
theorem graph_nodes_characterisation (st : Store) (x : Str) :
    x ∈ graphNodes st ↔ ∃ op ∈ analysisItems st, orderToCustomer st op.1 = x := by
  unfold graphNodes custProducts
  rw [mem_keys_groupFold]
  simp

/-- Customer A (id 1) has order 1 with no items; customer B (id 2) has order 2
with one item of product 5. -/
def c7Store : Store :=
  ⟨[⟨1, ['A'], [], []⟩, ⟨2, ['B'], [], []⟩], [⟨5, ['P'], 1⟩],
   [⟨1, 1, []⟩, ⟨2, 2, []⟩], [⟨1, 2, 5, 1, 1⟩], 3, 6, 3, 2⟩

/-- C7 counterexample: customer A appears in an order (order 1), yet A is not
a node of the relationship graph, because the node set is built from item
rows and A's only order has none; B, who has an item, is a node. -/
theorem graph_nodes_counterexample :
    (∃ o ∈ c7Store.orders, ∃ c ∈ c7Store.customers,
      c.id = o.customer_id ∧ c.name = ['A']) ∧
    ['A'] ∉ graphNodes c7Store ∧ ['B'] ∈ graphNodes c7Store := by
  refine ⟨⟨⟨1, 1, []⟩, by simp [c7Store], ⟨1, ['A'], [], []⟩, by simp [c7Store], rfl, rfl⟩,
    ?_, ?_⟩
  · decide
  · decide

/-!
## C10 — analytics key customers by name
-/

/-- The count an association list records for a name (0 when absent). -/
def countD0 (m : List (Str × ℕ)) (x : Str) : ℕ := (lookupName m x).getD 0

theorem countD0_bumpCount (k : Str) : ∀ (m : List (Str × ℕ)) (x : Str),
    countD0 (bumpCount k m) x = if x = k then countD0 m x + 1 else countD0 m x := by
  intro m
  induction m with
  | nil =>
    intro x
    by_cases hx : x = k
    · subst hx
      simp [bumpCount, countD0, lookupName]
    · simp [bumpCount, countD0, lookupName, Ne.symm hx, hx]
  | cons e rest ih =>
    intro x
    obtain ⟨k', n⟩ := e
    simp only [bumpCount]
    split
    · rename_i hk
      subst hk
      by_cases hx : x = k'
      · subst hx
        simp [countD0, lookupName]
      · simp [countD0, lookupName, Ne.symm hx, hx]
    · rename_i hk
      by_cases hx : x = k'
      · subst hx
        simp [countD0, lookupName, hk]
      · by_cases hxk : x = k
        · subst hxk
          have h1 : ¬ k' = x := fun h => hx h.symm
          simp only [countD0, lookupName] at ih ⊢
          simp [List.find?_cons, h1, ih x]
        · have h1 : ¬ k' = x := fun h => hx h.symm
          simp only [countD0, lookupName] at ih ⊢
          simp [List.find?_cons, h1, ih x, hxk]

theorem countD0_countFold : ∀ (rows : List OrderListRow) (acc : List (Str × ℕ)) (x : Str),
    countD0 (rows.foldl (fun acc o => bumpCount o.customer_name acc) acc) x =
      countD0 acc x + rows.countP (fun r => decide (r.customer_name = x)) := by
  intro rows
  induction rows with
  | nil => intro acc x; simp
  | cons r rows ih =>
    intro acc x
    rw [List.foldl_cons, ih, countD0_bumpCount, List.countP_cons]
    by_cases hx : x = r.customer_name
    · simp [hx]
      omega
    · have : ¬ r.customer_name = x := fun h => hx h.symm
      simp [hx, this]

theorem countP_or_disjoint {α : Type u} (p q : α → Bool) :
    ∀ (l : List α), (∀ a ∈ l, ¬(p a = true ∧ q a = true)) →
      l.countP (fun a => p a || q a) = l.countP p + l.countP q := by
  intro l
  induction l with
  | nil => intro _; simp
  | cons a l ih =>
    intro h
    have ha := h a (List.mem_cons_self a l)
    rw [List.countP_cons, List.countP_cons, List.countP_cons,
      ih (fun b hb => h b (List.mem_cons_of_mem a hb))]
    cases hp : p a <;> cases hq : q a <;> simp_all <;> omega

/-- Rows of `list_orders` are in bijection with resolvable orders; `countP`
over a row predicate that only inspects `customer_id` agrees with the same
count over the raw orders, provided every order's customer exists. -/
theorem countP_list_orders (st : Store)
    (hfk : ∀ o ∈ st.orders, ∃ c ∈ st.customers, c.id = o.customer_id) (p : ℕ → Bool) :
    (list_orders st).countP (fun r => p r.customer_id) =
      st.orders.countP (fun o => p o.customer_id) := by
  have main : ∀ l : List OrderRow, (∀ o ∈ l, ∃ c ∈ st.customers, c.id = o.customer_id) →
      (l.filterMap fun o =>
        (st.customers.find? (fun c => decide (c.id = o.customer_id))).map fun c =>
          (⟨o.id, o.customer_id, c.name, o.created_at, sqlOrderTotal st o.id⟩ :
            OrderListRow)).countP (fun r => p r.customer_id) =
      l.countP (fun o => p o.customer_id) := by
    intro l
    induction l with
    | nil => intro _; simp
    | cons o l ih =>
      intro h
      obtain ⟨c, hc, hcid⟩ := h o (List.mem_cons_self o l)
      have hsome : (st.customers.find? (fun c => decide (c.id = o.customer_id))).isSome := by
        rw [List.find?_isSome]
        exact ⟨c, hc, by simp [hcid]⟩
      obtain ⟨c', hc'⟩ := Option.isSome_iff_exists.mp hsome
      rw [List.filterMap_cons, hc']
      simp only [Option.map_some']
      rw [List.countP_cons, List.countP_cons, ih (fun o ho => h o (List.mem_cons_of_mem _ ho))]
  unfold list_orders
  rw [main _ (fun o ho => hfk o (List.mem_reverse.mp ho)),
    List.countP_eq_length_filter, List.countP_eq_length_filter, List.filter_reverse,
    List.length_reverse]

theorem keys_bumpCount (k : Str) : ∀ m : List (Str × ℕ),
    (bumpCount k m).map Prod.fst =
      if k ∈ m.map Prod.fst then m.map Prod.fst else m.map Prod.fst ++ [k] := by
  intro m
  induction m with
  | nil => simp [bumpCount]
  | cons e rest ih =>
    obtain ⟨k', n⟩ := e
    simp only [bumpCount]
    split
    · rename_i hk
      subst hk
      simp
    · rename_i hk
      have : ¬ k = k' := fun h => hk h.symm
      simp only [List.map_cons, List.mem_cons, this, false_or, ih]
      split <;> simp

theorem nodup_keys_bumpFold : ∀ (rows : List OrderListRow) (acc : List (Str × ℕ)),
    (acc.map Prod.fst).Nodup →
      ((rows.foldl (fun acc o => bumpCount o.customer_name acc) acc).map Prod.fst).Nodup := by
  intro rows
  induction rows with
  | nil => intro acc h; exact h
  | cons r rows ih =>
    intro acc h
    rw [List.foldl_cons]
    refine ih _ ?_
    rw [keys_bumpCount]
    split
    · exact h
    · rename_i hmem
      simp [List.nodup_append, h, hmem]

theorem keys_insertGrouped (k : Str) (pid : ℕ) : ∀ m : List (Str × Finset ℕ),
    (insertGrouped k pid m).map Prod.fst =
      if k ∈ m.map Prod.fst then m.map Prod.fst else m.map Prod.fst ++ [k] := by
  intro m
  induction m with
  | nil => simp [insertGrouped]
  | cons e rest ih =>
    obtain ⟨k', s⟩ := e
    simp only [insertGrouped]
    split
    · rename_i hk
      subst hk
      simp
    · rename_i hk
      have : ¬ k = k' := fun h => hk h.symm
      simp only [List.map_cons, List.mem_cons, this, false_or, ih]
      split <;> simp

theorem nodup_keys_groupFold (st : Store) :
    ∀ (l : List (ℕ × ℕ)) (acc : List (Str × Finset ℕ)),
      (acc.map Prod.fst).Nodup →
      ((l.foldl (fun acc op => insertGrouped (orderToCustomer st op.1) op.2 acc)
          acc).map Prod.fst).Nodup := by
  intro l
  induction l with
  | nil => intro acc h; exact h
  | cons op l ih =>
    intro acc h
    rw [List.foldl_cons]
    refine ih _ ?_
    rw [keys_insertGrouped]
    split
    · exact h
    · rename_i hmem
      simp [List.nodup_append, h, hmem]

theorem mem_val_insertGrouped (key : Str) (pid : ℕ) :
    ∀ (acc : List (Str × Finset ℕ)), (acc.map Prod.fst).Nodup → ∀ (x : Str) (q : ℕ),
      ((∃ s, (x, s) ∈ insertGrouped key pid acc ∧ q ∈ s) ↔
        (∃ s, (x, s) ∈ acc ∧ q ∈ s) ∨ (x = key ∧ q = pid)) := by
  intro acc
  induction acc with
  | nil =>
    intro _ x q
    simp only [insertGrouped, List.mem_singleton, List.not_mem_nil, false_and,
      exists_const, false_or]
    constructor
    · rintro ⟨s, heq, hq⟩
      obtain ⟨h1, h2⟩ := Prod.mk.injEq .. ▸ heq
      subst h1
      subst h2
      simpa using hq
    · rintro ⟨rfl, rfl⟩
      exact ⟨{q}, rfl, Finset.mem_singleton_self q⟩
  | cons e rest ih =>
    intro hnd x q
    obtain ⟨k, s0⟩ := e
    have hndr : (rest.map Prod.fst).Nodup := (List.nodup_cons.mp hnd).2
    have hkfresh : k ∉ rest.map Prod.fst := (List.nodup_cons.mp hnd).1
    simp only [insertGrouped]
    split
    · rename_i hk
      subst hk
      constructor
      · rintro ⟨s, hmem, hq⟩
        rcases List.mem_cons.mp hmem with heq | hrest
        · obtain ⟨h1, h2⟩ := Prod.mk.injEq .. ▸ heq
          subst h1
          subst h2
          rcases Finset.mem_insert.mp hq with rfl | hq0
          · exact Or.inr ⟨rfl, rfl⟩
          · exact Or.inl ⟨s0, List.mem_cons_self .., hq0⟩
        · exact Or.inl ⟨s, List.mem_cons_of_mem _ hrest, hq⟩
      · rintro (⟨s, hmem, hq⟩ | ⟨rfl, rfl⟩)
        · rcases List.mem_cons.mp hmem with heq | hrest
          · obtain ⟨h1, h2⟩ := Prod.mk.injEq .. ▸ heq
            subst h1
            subst h2
            exact ⟨insert pid s, List.mem_cons_self .., Finset.mem_insert_of_mem hq⟩
          · exact ⟨s, List.mem_cons_of_mem _ hrest, hq⟩
        · exact ⟨insert q s0, List.mem_cons_self .., Finset.mem_insert_self q s0⟩
    · rename_i hk
      constructor
      · rintro ⟨s, hmem, hq⟩
        rcases List.mem_cons.mp hmem with heq | hrest
        · obtain ⟨h1, h2⟩ := Prod.mk.injEq .. ▸ heq
          subst h1
          subst h2
          exact Or.inl ⟨s, List.mem_cons_self .., hq⟩
        · rcases (ih hndr x q).mp ⟨s, hrest, hq⟩ with ⟨s', hs', hq'⟩ | hkey
          · exact Or.inl ⟨s', List.mem_cons_of_mem _ hs', hq'⟩
          · exact Or.inr hkey
      · rintro (⟨s, hmem, hq⟩ | hkey)
        · rcases List.mem_cons.mp hmem with heq | hrest
          · obtain ⟨h1, h2⟩ := Prod.mk.injEq .. ▸ heq
            subst h1
            subst h2
            exact ⟨s, List.mem_cons_self .., hq⟩
          · obtain ⟨s', hs', hq'⟩ := (ih hndr x q).mpr (Or.inl ⟨s, hrest, hq⟩)
            exact ⟨s', List.mem_cons_of_mem _ hs', hq'⟩
        · obtain ⟨s', hs', hq'⟩ := (ih hndr x q).mpr (Or.inr hkey)
          exact ⟨s', List.mem_cons_of_mem _ hs', hq'⟩

theorem mem_val_groupFold (st : Store) :
    ∀ (l : List (ℕ × ℕ)) (acc : List (Str × Finset ℕ)), (acc.map Prod.fst).Nodup →
      ∀ (x : Str) (q : ℕ),
      ((∃ s, (x, s) ∈ l.foldl (fun acc op =>
          insertGrouped (orderToCustomer st op.1) op.2 acc) acc ∧ q ∈ s) ↔
        (∃ s, (x, s) ∈ acc ∧ q ∈ s) ∨
          ∃ op ∈ l, orderToCustomer st op.1 = x ∧ op.2 = q) := by
  intro l
  induction l with
  | nil => intro acc _ x q; simp
  | cons op l ih =>
    intro acc hnd x q
    rw [List.foldl_cons]
    have hnd' : ((insertGrouped (orderToCustomer st op.1) op.2 acc).map Prod.fst).Nodup := by
      rw [keys_insertGrouped]
      split
      · exact hnd
      · rename_i hmem
        simp [List.nodup_append, hnd, hmem]
    rw [ih _ hnd' x q, mem_val_insertGrouped _ _ _ hnd x q]
    simp only [List.mem_cons]
    constructor
    · rintro ((h | ⟨rfl, rfl⟩) | ⟨op', hop', h1, h2⟩)
      · exact Or.inl h
      · exact Or.inr ⟨op, Or.inl rfl, rfl, rfl⟩
      · exact Or.inr ⟨op', Or.inr hop', h1, h2⟩
    · rintro (h | ⟨op', (rfl | hop'), h1, h2⟩)
      · exact Or.inl (Or.inl h)
      · exact Or.inl (Or.inr ⟨h1.symm, h2.symm⟩)
      · exact Or.inr ⟨op', hop', h1, h2⟩

/-- The per-name product sets pool every purchase recorded under that name. -/
theorem mem_custProducts (st : Store) (x : Str) (q : ℕ) :
    (∃ s, (x, s) ∈ custProducts st ∧ q ∈ s) ↔
      ∃ op ∈ analysisItems st, orderToCustomer st op.1 = x ∧ op.2 = q := by
  unfold custProducts
  rw [mem_val_groupFold st _ [] List.nodup_nil x q]
  simp

/-- C10: every analytics aggregation keys customers by their name string, not
their identifier. For a store containing two distinct customers with equal
names (and no third customer with that name): the grouped order counts behind
the top-5 ranking have one entry per name (keys are nodup) whose count pools
both customers' orders; and the relationship graph keys its per-customer
product sets by name with nodup keys, every `list_orders` row carrying that
name belonging to one of the two customers, and the name's product set
pooling all purchases recorded under the name. -/
theorem analytics_key_by_name (st : Store) (c1 c2 : CustomerRow)
    (hidnd : (st.customers.map CustomerRow.id).Nodup)
    (hc1 : c1 ∈ st.customers) (hc2 : c2 ∈ st.customers)
    (hneid : c1.id ≠ c2.id) (hname : c2.name = c1.name)
    (honly : ∀ c ∈ st.customers, c.name = c1.name → c = c1 ∨ c = c2)
    (hfk : ∀ o ∈ st.orders, ∃ c ∈ st.customers, c.id = o.customer_id) :
    ((orderCountsByName st).map Prod.fst).Nodup ∧
    ((custProducts st).map Prod.fst).Nodup ∧
    countD0 (orderCountsByName st) c1.name =
      st.orders.countP (fun o => decide (o.customer_id = c1.id)) +
      st.orders.countP (fun o => decide (o.customer_id = c2.id)) ∧
    (∀ r ∈ list_orders st,
      (r.customer_name = c1.name ↔ (r.customer_id = c1.id ∨ r.customer_id = c2.id))) ∧
    (∀ pid : ℕ, (∃ s, (c1.name, s) ∈ custProducts st ∧ pid ∈ s) ↔
      ∃ op ∈ analysisItems st, orderToCustomer st op.1 = c1.name ∧ op.2 = pid) := by
  have hinj := List.inj_on_of_nodup_map hidnd
  have hrowiff : ∀ r ∈ list_orders st,
      (r.customer_name = c1.name ↔ (r.customer_id = c1.id ∨ r.customer_id = c2.id)) := by
    intro r hr
    simp only [list_orders, List.mem_filterMap, Option.map_eq_some'] at hr
    obtain ⟨o, ho, c, hfind, rfl⟩ := hr
    have hcmem : c ∈ st.customers := List.mem_of_find?_eq_some hfind
    have hdec := List.find?_some hfind
    have hcid : c.id = o.customer_id := of_decide_eq_true hdec
    constructor
    · intro hn
      rcases honly c hcmem hn with rfl | rfl
      · exact Or.inl hcid.symm
      · exact Or.inr hcid.symm
    · rintro (h1 | h2)
      · have : c = c1 := hinj hcmem hc1 (by rw [hcid]; exact h1)
        rw [this]
      · have : c = c2 := hinj hcmem hc2 (by rw [hcid]; exact h2)
        rw [this, hname]
  refine ⟨nodup_keys_bumpFold _ [] List.nodup_nil,
    nodup_keys_groupFold st _ [] List.nodup_nil, ?_, hrowiff,
    fun pid => mem_custProducts st c1.name pid⟩
  unfold orderCountsByName
  rw [countD0_countFold]
  simp only [countD0, lookupName, List.find?_nil, Option.map_none', Option.getD_none,
    Nat.zero_add]
  have hcong : (list_orders st).countP (fun r => decide (r.customer_name = c1.name)) =
      (list_orders st).countP (fun r =>
        decide (r.customer_id = c1.id) || decide (r.customer_id = c2.id)) := by
    apply List.countP_congr
    intro r hr
    have := hrowiff r hr
    constructor <;> intro h
    · rcases this.mp (of_decide_eq_true h) with h1 | h1 <;> simp [h1]
    · have hor : r.customer_id = c1.id ∨ r.customer_id = c2.id := by
        rcases Bool.or_eq_true_iff.mp h with h1 | h1
        · exact Or.inl (of_decide_eq_true h1)
        · exact Or.inr (of_decide_eq_true h1)
      simp [this.mpr hor]
  rw [hcong,
    countP_list_orders st hfk (fun cid => decide (cid = c1.id) || decide (cid = c2.id))]
  apply countP_or_disjoint
  intro o _ ⟨h1, h2⟩
  exact hneid ((of_decide_eq_true h1).symm.trans (of_decide_eq_true h2))

/-- Two distinct customers both named N (ids 1 and 2), one order and one item
each. -/
def c10Store : Store :=
  ⟨[⟨1, ['N'], [], []⟩, ⟨2, ['N'], [], []⟩], [⟨7, ['P'], 1⟩],
   [⟨1, 1, []⟩, ⟨2, 2, []⟩], [⟨1, 1, 7, 1, 1⟩, ⟨2, 2, 7, 1, 2⟩], 3, 8, 3, 3⟩

theorem analytics_key_by_name_witness :
    ((orderCountsByName c10Store).map Prod.fst).Nodup ∧
    ((custProducts c10Store).map Prod.fst).Nodup ∧
    countD0 (orderCountsByName c10Store) (⟨1, ['N'], [], []⟩ : CustomerRow).name =
      c10Store.orders.countP (fun o => decide (o.customer_id =
        (⟨1, ['N'], [], []⟩ : CustomerRow).id)) +
      c10Store.orders.countP (fun o => decide (o.customer_id =
        (⟨2, ['N'], [], []⟩ : CustomerRow).id)) ∧
    (∀ r ∈ list_orders c10Store,
      (r.customer_name = (⟨1, ['N'], [], []⟩ : CustomerRow).name ↔
        (r.customer_id = (⟨1, ['N'], [], []⟩ : CustomerRow).id ∨
         r.customer_id = (⟨2, ['N'], [], []⟩ : CustomerRow).id))) ∧
    (∀ pid : ℕ, (∃ s, ((⟨1, ['N'], [], []⟩ : CustomerRow).name, s) ∈ custProducts c10Store ∧
        pid ∈ s) ↔
      ∃ op ∈ analysisItems c10Store,
        orderToCustomer c10Store op.1 = (⟨1, ['N'], [], []⟩ : CustomerRow).name ∧
          op.2 = pid) := by
  exact analytics_key_by_name c10Store ⟨1, ['N'], [], []⟩ ⟨2, ['N'], [], []⟩
    (by decide) (by decide) (by decide) (by decide) (by decide) (by decide)
    (by decide)

/-!
## Import characterisation (for C8 and C5)

Row and remap generators describing the state a successful `import_json`
builds, proved against the importer's loops.
-/

/-- The `cust_map` the customers loop builds: document id (or the fresh id
when the document id is 0) to the consecutively assigned new ids, newest
binding first. -/
def custMapGen : List CustomerRow → ℕ → List (ℕ × ℕ)
  | [], _ => []
  | c :: cs, n => custMapGen cs (n + 1) ++ [(if c.id = 0 then n else c.id, n)]

/-- The `prod_map` the products loop builds. -/
def prodMapGen : List ProductRow → ℕ → List (ℕ × ℕ)
  | [], _ => []
  | p :: ps, n => prodMapGen ps (n + 1) ++ [(if p.id = 0 then n else p.id, n)]

/-- The item rows `add_order` inserts for one order. -/
def itemRowsFrom (oid : ℕ) : List OrderItem → ℕ → List ItemRow
  | [], _ => []
  | it :: rest, n =>
    ⟨n, oid, it.product_id, it.unit_price, it.quantity⟩ :: itemRowsFrom oid rest (n + 1)

/-- The rebuilt in-memory item of one document item (product id remapped). -/
def exItemToOrderItem (pm : List (ℕ × ℕ)) (it : ExItem) : OrderItem :=
  ⟨none, lookupD pm it.product_id, it.product_title, it.unit_price, it.quantity⟩

/-- The order headers the orders loop inserts (customer ids remapped). -/
def orderRowsFrom (cm : List (ℕ × ℕ)) : List ExOrder → ℕ → List OrderRow
  | [], _ => []
  | o :: os, n =>
    ⟨n, lookupD cm o.customer_id, o.created_at⟩ :: orderRowsFrom cm os (n + 1)

/-- The item rows the orders loop inserts, ids threaded through. -/
def orderItemRowsFrom (pm : List (ℕ × ℕ)) : List ExOrder → ℕ → ℕ → List ItemRow
  | [], _, _ => []
  | o :: os, n, m =>
    itemRowsFrom n (o.items.map (exItemToOrderItem pm)) m ++
      orderItemRowsFrom pm os (n + 1) (m + o.items.length)

theorem importCustomers_spec :
    ∀ (cs : List CustomerRow) (st : Store) (m : List (ℕ × ℕ)) (st' : Store)
      (m' : List (ℕ × ℕ)), importCustomers cs st m = .ok (st', m') →
      m' = custMapGen cs st.seqCustomers ++ m ∧
      st'.seqCustomers = st.seqCustomers + cs.length ∧
      st'.products = st.products ∧ st'.orders = st.orders ∧
      st'.order_items = st.order_items ∧ st'.seqProducts = st.seqProducts ∧
      st'.seqOrders = st.seqOrders ∧ st'.seqItems = st.seqItems := by
  intro cs
  induction cs with
  | nil =>
    intro st m st' m' h
    simp only [importCustomers] at h
    have hp := Except.ok.inj h
    obtain ⟨rfl, rfl⟩ : st = st' ∧ m = m' :=
      ⟨congrArg Prod.fst hp, congrArg Prod.snd hp⟩
    simp [custMapGen]
  | cons c cs ih =>
    intro st m st' m' h
    cases hmk : customerMk c.name c.email c.phone with
    | error e =>
      simp only [importCustomers, hmk, bind, Except.bind] at h
      exact absurd h (by simp)
    | ok cust =>
      simp only [importCustomers, hmk, bind, Except.bind, add_customer] at h
      obtain ⟨hm, hseq, hprod, hord, hoi, hsp, hso, hsi⟩ := ih _ _ _ _ h
      refine ⟨?_, ?_, hprod, hord, hoi, hsp, hso, hsi⟩
      · rw [hm]
        simp [custMapGen, List.append_assoc]
      · rw [hseq]
        simp only [List.length_cons]
        omega

theorem importProducts_spec :
    ∀ (ps : List ProductRow) (st : Store) (m : List (ℕ × ℕ)) (st' : Store)
      (m' : List (ℕ × ℕ)), importProducts ps st m = .ok (st', m') →
      m' = prodMapGen ps st.seqProducts ++ m ∧
      st'.seqProducts = st.seqProducts + ps.length ∧
      st'.orders = st.orders ∧ st'.order_items = st.order_items ∧
      st'.seqOrders = st.seqOrders ∧ st'.seqItems = st.seqItems := by
  intro ps
  induction ps with
  | nil =>
    intro st m st' m' h
    simp only [importProducts] at h
    have hp := Except.ok.inj h
    obtain ⟨rfl, rfl⟩ : st = st' ∧ m = m' :=
      ⟨congrArg Prod.fst hp, congrArg Prod.snd hp⟩
    simp [prodMapGen]
  | cons p ps ih =>
    intro st m st' m' h
    cases hmk : productMk p.title p.price with
    | error e =>
      simp only [importProducts, hmk, bind, Except.bind] at h
      exact absurd h (by simp)
    | ok prod =>
      simp only [importProducts, hmk, bind, Except.bind, add_product] at h
      obtain ⟨hm, hseq, hord, hoi, hso, hsi⟩ := ih _ _ _ _ h
      refine ⟨?_, ?_, hord, hoi, hso, hsi⟩
      · rw [hm]
        simp [prodMapGen, List.append_assoc]
      · rw [hseq]
        simp only [List.length_cons]
        omega

theorem buildItems_spec :
    ∀ (its : List ExItem) (pm : List (ℕ × ℕ)) (o o' : Order),
      buildItems pm its o = .ok o' →
      o' = { o with items := o.items ++ its.map (exItemToOrderItem pm) } := by
  intro its
  induction its with
  | nil =>
    intro pm o o' h
    simp only [buildItems] at h
    have := Except.ok.inj h
    subst this
    simp
  | cons it its ih =>
    intro pm o o' h
    by_cases hq : it.quantity < 1
    · simp only [buildItems, Order.add_item, if_pos hq, bind, Except.bind] at h
      exact absurd h (by simp)
    · simp only [buildItems, Order.add_item, if_neg hq, bind, Except.bind] at h
      have := ih pm _ _ h
      rw [this]
      simp [exItemToOrderItem]

theorem insertItemRows_spec :
    ∀ (its : List OrderItem) (oid : ℕ) (st st' : Store),
      insertItemRows oid its st = .ok st' →
      st' = { st with
        order_items := st.order_items ++ itemRowsFrom oid its st.seqItems,
        seqItems := st.seqItems + its.length } := by
  intro its
  induction its with
  | nil =>
    intro oid st st' h
    simp only [insertItemRows] at h
    have := Except.ok.inj h
    subst this
    simp [itemRowsFrom]
  | cons it its ih =>
    intro oid st st' h
    simp only [insertItemRows] at h
    split at h
    · exact absurd h (by simp)
    · have := ih oid _ _ h
      rw [this]
      simp [Store.mk.injEq, itemRowsFrom, List.append_assoc]
      all_goals omega

theorem add_order_spec (ord : Order) (st : Store) (oid : ℕ) (st' : Store)
    (h : add_order ord st = .ok (oid, st')) :
    oid = st.seqOrders ∧
    st' = { st with
      orders := st.orders ++ [⟨st.seqOrders, ord.customer_id, ord.created_at⟩],
      order_items := st.order_items ++ itemRowsFrom st.seqOrders ord.items st.seqItems,
      seqOrders := st.seqOrders + 1,
      seqItems := st.seqItems + ord.items.length } := by
  unfold add_order at h
  split at h
  · exact absurd h (by simp)
  · cases hrec : insertItemRows st.seqOrders ord.items
        { st with
          orders := st.orders ++ [⟨st.seqOrders, ord.customer_id, ord.created_at⟩],
          seqOrders := st.seqOrders + 1 } with
    | error e => rw [hrec] at h; exact absurd h (by simp [Except.map])
    | ok stF =>
      rw [hrec] at h
      simp only [Except.map] at h
      have hp := Except.ok.inj h
      obtain ⟨h1, h2⟩ : st.seqOrders = oid ∧ stF = st' :=
        ⟨congrArg Prod.fst hp, congrArg Prod.snd hp⟩
      subst h1
      subst h2
      have := insertItemRows_spec ord.items st.seqOrders _ _ hrec
      rw [this]
      simp [Store.mk.injEq]

theorem importOrders_spec (cm pm : List (ℕ × ℕ)) :
    ∀ (os : List ExOrder) (st st' : Store),
      importOrders cm pm os st = .ok st' →
      st' = { st with
        orders := st.orders ++ orderRowsFrom cm os st.seqOrders,
        order_items := st.order_items ++
          orderItemRowsFrom pm os st.seqOrders st.seqItems,
        seqOrders := st.seqOrders + os.length,
        seqItems := st.seqItems + (os.map (fun o => o.items.length)).sum } := by
  intro os
  induction os with
  | nil =>
    intro st st' h
    simp only [importOrders] at h
    have := Except.ok.inj h
    subst this
    simp [orderRowsFrom, orderItemRowsFrom]
  | cons o os ih =>
    intro st st' h
    cases hb : buildItems pm o.items ⟨none, lookupD cm o.customer_id, o.created_at, []⟩ with
    | error e =>
      simp only [importOrders, hb, bind, Except.bind] at h
      exact absurd h (by simp)
    | ok ord =>
      simp only [importOrders, hb, bind, Except.bind] at h
      have hord := buildItems_spec o.items pm _ _ hb
      cases hao : add_order ord st with
      | error e =>
        rw [hao] at h
        exact absurd h (by simp)
      | ok pr =>
        rw [hao] at h
        obtain ⟨oid, st1⟩ := pr
        obtain ⟨hoid, hst1⟩ := add_order_spec ord st oid st1 hao
        have hrec := ih _ _ h
        subst hst1
        rw [hrec]
        subst hord
        simp [Store.mk.injEq, orderRowsFrom, orderItemRowsFrom, List.append_assoc]
        all_goals omega

theorem map_customer_id_orderRowsFrom (cm : List (ℕ × ℕ)) :
    ∀ (os : List ExOrder) (n : ℕ),
      (orderRowsFrom cm os n).map OrderRow.customer_id =
        os.map (fun o => lookupD cm o.customer_id) := by
  intro os
  induction os with
  | nil => intro n; rfl
  | cons o os ih => intro n; simp [orderRowsFrom, ih]

theorem map_product_id_itemRowsFrom (oid : ℕ) :
    ∀ (its : List OrderItem) (m : ℕ),
      (itemRowsFrom oid its m).map ItemRow.product_id = its.map OrderItem.product_id := by
  intro its
  induction its with
  | nil => intro m; rfl
  | cons it its ih => intro m; simp [itemRowsFrom, ih]

theorem map_product_id_orderItemRowsFrom (pm : List (ℕ × ℕ)) :
    ∀ (os : List ExOrder) (n m : ℕ),
      (orderItemRowsFrom pm os n m).map ItemRow.product_id =
        (os.map (fun o => o.items.map (fun it => lookupD pm it.product_id))).flatten := by
  intro os
  induction os with
  | nil => intro n m; rfl
  | cons o os ih =>
    intro n m
    simp only [orderItemRowsFrom, List.map_append, List.map_cons, List.flatten_cons, ih,
      map_product_id_itemRowsFrom, List.map_map]
    rfl

/-- C8: `import_json` rewrites every order's customer reference and every
item's product reference through the old-to-new remapping built while
inserting the document's customers and products; `lookupD` passes an
identifier absent from the table through unchanged instead of rejecting it.
With `clear_first`, the four tables are emptied — order items, orders,
products, customers, in that cascade order — before any insert. -/
theorem import_json_remap (doc : Doc) (st : Store) :
    (import_json doc true st =
      import_json doc false
        (clearCustomers (clearProducts (clearOrders (clearOrderItems st))))) ∧
    ((clearAll st).order_items = [] ∧ (clearAll st).orders = [] ∧
      (clearAll st).products = [] ∧ (clearAll st).customers = []) ∧
    (∀ st', import_json doc false st = .ok st' →
      st'.orders.map OrderRow.customer_id =
        st.orders.map OrderRow.customer_id ++
          doc.orders.map (fun o =>
            lookupD (custMapGen doc.customers st.seqCustomers) o.customer_id) ∧
      st'.order_items.map ItemRow.product_id =
        st.order_items.map ItemRow.product_id ++
          (doc.orders.map (fun o => o.items.map (fun it =>
            lookupD (prodMapGen doc.products st.seqProducts) it.product_id))).flatten) := by
  refine ⟨rfl, ⟨rfl, rfl, rfl, rfl⟩, ?_⟩
  intro st' h
  simp only [import_json, bind, Except.bind] at h
  rw [if_neg (by simp)] at h
  cases hic : importCustomers doc.customers st [] with
  | error e => rw [hic] at h; exact absurd h (by simp)
  | ok pr1 =>
    rw [hic] at h
    obtain ⟨st1, cm⟩ := pr1
    dsimp only at h
    obtain ⟨hcm, _, hprod1, hord1, hoi1, hsp1, hso1, hsi1⟩ :=
      importCustomers_spec doc.customers st [] st1 cm hic
    cases hip : importProducts doc.products st1 [] with
    | error e => rw [hip] at h; exact absurd h (by simp)
    | ok pr2 =>
      rw [hip] at h
      obtain ⟨st2, pm⟩ := pr2
      dsimp only at h
      obtain ⟨hpm, _, hord2, hoi2, hso2, hsi2⟩ :=
        importProducts_spec doc.products st1 [] st2 pm hip
      have hst' := importOrders_spec cm pm doc.orders st2 st' h
      rw [hst']
      constructor
      · simp only [List.map_append, map_customer_id_orderRowsFrom]
        rw [hord2, hord1, hcm, List.append_nil]
      · simp only [List.map_append, map_product_id_orderItemRowsFrom]
        rw [hoi2, hoi1, hpm, List.append_nil, hsp1]

/-!
## C9 — `add_order` atomicity
-/

theorem insertItemRowsPartial_none :
    ∀ (its : List OrderItem) (oid : ℕ) (st stF : Store),
      insertItemRowsPartial oid its st = (stF, none) →
      insertItemRows oid its st = .ok stF := by
  intro its
  induction its with
  | nil =>
    intro oid st stF h
    simp only [insertItemRowsPartial] at h
    obtain ⟨rfl, -⟩ : st = stF ∧ True :=
      ⟨congrArg Prod.fst h, trivial⟩
    rfl
  | cons it its ih =>
    intro oid st stF h
    simp only [insertItemRowsPartial, insertItemRows] at h ⊢
    split at h
    · exact absurd (congrArg Prod.snd h) (by simp)
    · rename_i hfind
      rw [if_neg hfind]
      exact ih oid _ stF h

/-- C9 (amended): on success `add_order` publishes the header and every item
as one unit — the single final commit makes committed and current coincide,
and the result agrees with the committed-store semantics of `add_order`. On
failure the error surfaces and the committed (durable) store is untouched;
but the code has no rollback, so the header INSERT already executed stays
pending in the connection's current state instead of being discarded. -/
theorem add_order_conn (o : Order) (conn : Conn) :
    (∀ oid conn', addOrderConn o conn = (.ok oid, conn') →
      conn'.committed = conn'.current ∧
      add_order o conn.current = .ok (oid, conn'.current)) ∧
    (∀ e conn', addOrderConn o conn = (.error e, conn') →
      conn'.committed = conn.committed) := by
  unfold addOrderConn
  split
  · rename_i hnone
    constructor
    · intro oid conn' h
      exact absurd (congrArg Prod.fst h) (by simp)
    · intro e conn' h
      have h2 : conn = conn' := congrArg Prod.snd h
      rw [← h2]
  · rename_i hfind
    cases hpart : insertItemRowsPartial conn.current.seqOrders o.items
        { conn.current with
          orders := conn.current.orders ++
            [⟨conn.current.seqOrders, o.customer_id, o.created_at⟩],
          seqOrders := conn.current.seqOrders + 1 } with
    | mk stF err =>
      cases err with
      | some e0 =>
        dsimp only
        constructor
        · intro oid conn' h
          exact absurd (congrArg Prod.fst h) (by simp)
        · intro e conn' h
          have h2 : ({ conn with current := stF } : Conn) = conn' := congrArg Prod.snd h
          rw [← h2]
      | none =>
        dsimp only
        constructor
        · intro oid conn' h
          have h1 : Except.ok (ε := Err) conn.current.seqOrders = .ok oid :=
            congrArg Prod.fst h
          have h2 : (⟨stF, stF⟩ : Conn) = conn' := congrArg Prod.snd h
          obtain rfl := Except.ok.inj h1
          rw [← h2]
          refine ⟨rfl, ?_⟩
          unfold add_order
          rw [if_neg hfind]
          rw [insertItemRowsPartial_none o.items conn.current.seqOrders _ stF hpart]
          rfl
        · intro e conn' h
          exact absurd (congrArg Prod.fst h) (by simp)

/-- A connection to a store holding customer 1 and no products, on which an
order for customer 1 with one item referencing the missing product 42 is
attempted. -/
def c9Conn : Conn :=
  ⟨⟨[⟨1, ['A'], [], []⟩], [], [], [], 2, 1, 1, 1⟩,
   ⟨[⟨1, ['A'], [], []⟩], [], [], [], 2, 1, 1, 1⟩⟩

def c9Order : Order := ⟨none, 1, ['t'], [⟨none, 42, ['P'], 1, 1⟩]⟩

/-- C9 counterexample: the item INSERT fails on its foreign key after the
header INSERT already executed; the error surfaces, the committed store is
still the pre-call one, but the connection's own reads now show the order
header with no items — neither "all of the order" nor "none of it". -/
theorem add_order_atomicity_counterexample :
    (addOrderConn c9Order c9Conn).1 = .error .fkViolation ∧
    (addOrderConn c9Order c9Conn).2.committed = c9Conn.committed ∧
    (list_orders (addOrderConn c9Order c9Conn).2.current).map
      (fun r => (r.id, r.customer_id)) = [(1, 1)] ∧
    get_order_items (addOrderConn c9Order c9Conn).2.current 1 = [] := by
  exact ⟨rfl, rfl, rfl, rfl⟩

/-!
## C5 — export → import round trip

Field views (everything but identifiers), well-formedness of a store as the
persistence API maintains it, and the characterisation of importing an
exported document into a fresh store.
-/

/-- A customer's non-identifier fields. -/
def custView (c : CustomerRow) : Str × Str × Str := (c.name, c.email, c.phone)

/-- A product's non-identifier fields. -/
def prodView (p : ProductRow) : Str × ℚ := (p.title, p.price)

/-- An item's non-identifier fields as read back: current product title, unit
price and quantity snapshots, and the derived line total. -/
def itemView (iv : ItemListRow) : Str × ℚ × ℤ × ℚ :=
  (iv.product_title, iv.unit_price, iv.quantity,
    round2 (iv.unit_price * (iv.quantity : ℚ)))

/-- An order's non-identifier fields: timestamp, computed total, and its
items' views in line order. -/
def orderView (st : Store) (o : OrderRow) : Str × ℚ × List (Str × ℚ × ℤ × ℚ) :=
  (o.created_at, sqlOrderTotal st o.id, (get_order_items st o.id).map itemView)

/-- Well-formedness as the persistence API maintains it: stored rows
re-validate without change, references resolve, quantities are positive, and
AUTOINCREMENT ids are distinct and non-zero. -/
structure StoreWF (st : Store) : Prop where
  custOk : ∀ c ∈ st.customers,
    customerMk c.name c.email c.phone = .ok ⟨none, c.name, c.email, c.phone⟩
  prodOk : ∀ p ∈ st.products, productMk p.title p.price = .ok ⟨none, p.title, p.price⟩
  qtyOk : ∀ it ∈ st.order_items, 1 ≤ it.quantity
  orderFK : ∀ o ∈ st.orders, ∃ c ∈ st.customers, c.id = o.customer_id
  itemFK : ∀ it ∈ st.order_items, ∃ p ∈ st.products, p.id = it.product_id
  custIdsNodup : (st.customers.map CustomerRow.id).Nodup
  prodIdsNodup : (st.products.map ProductRow.id).Nodup
  custIdsNonzero : ∀ c ∈ st.customers, c.id ≠ 0
  prodIdsNonzero : ∀ p ∈ st.products, p.id ≠ 0

/-- `sqlOrderTotal` factored through the item table. -/
def itemsTotal (rows : List ItemRow) (oid : ℕ) : ℚ :=
  ((rows.filter (fun it => decide (it.order_id = oid))).map
    (fun it => it.unit_price * (it.quantity : ℚ))).sum

theorem sqlOrderTotal_eq (st : Store) (oid : ℕ) :
    sqlOrderTotal st oid = itemsTotal st.order_items oid := rfl

/-- `get_order_items` factored through the item and product tables. -/
def itemsJoin (prods : List ProductRow) (rows : List ItemRow) (oid : ℕ) :
    List ItemListRow :=
  (rows.filter (fun it => decide (it.order_id = oid))).filterMap fun it =>
    (prods.find? (fun p => decide (p.id = it.product_id))).map fun p =>
      ⟨it.id, it.product_id, p.title, it.unit_price, it.quantity⟩

theorem get_order_items_eq (st : Store) (oid : ℕ) :
    get_order_items st oid = itemsJoin st.products st.order_items oid := rfl

/-- The customer rows inserted by the customers loop of an import whose
validations succeed without change. -/
def custRowsFrom : List CustomerRow → ℕ → List CustomerRow
  | [], _ => []
  | c :: cs, n => ⟨n, c.name, c.email, c.phone⟩ :: custRowsFrom cs (n + 1)

/-- The product rows inserted by the products loop of an import whose
validations succeed without change. -/
def prodRowsFrom : List ProductRow → ℕ → List ProductRow
  | [], _ => []
  | p :: ps, n => ⟨n, p.title, p.price⟩ :: prodRowsFrom ps (n + 1)

theorem importCustomers_ok :
    ∀ (cs : List CustomerRow), (∀ c ∈ cs,
        customerMk c.name c.email c.phone = .ok ⟨none, c.name, c.email, c.phone⟩) →
      ∀ (st : Store) (m : List (ℕ × ℕ)),
      importCustomers cs st m = .ok
        ({ st with
            customers := st.customers ++ custRowsFrom cs st.seqCustomers,
            seqCustomers := st.seqCustomers + cs.length },
          custMapGen cs st.seqCustomers ++ m) := by
  intro cs
  induction cs with
  | nil =>
    intro _ st m
    simp [importCustomers, custMapGen, custRowsFrom]
  | cons c cs ih =>
    intro hval st m
    have hmk := hval c (List.mem_cons_self c cs)
    simp only [importCustomers, hmk, bind, Except.bind, add_customer]
    rw [ih (fun c hc => hval c (List.mem_cons_of_mem _ hc))]
    simp [Store.mk.injEq, custRowsFrom, custMapGen, List.append_assoc]
    all_goals omega

theorem importProducts_ok :
    ∀ (ps : List ProductRow), (∀ p ∈ ps,
        productMk p.title p.price = .ok ⟨none, p.title, p.price⟩) →
      ∀ (st : Store) (m : List (ℕ × ℕ)),
      importProducts ps st m = .ok
        ({ st with
            products := st.products ++ prodRowsFrom ps st.seqProducts,
            seqProducts := st.seqProducts + ps.length },
          prodMapGen ps st.seqProducts ++ m) := by
  intro ps
  induction ps with
  | nil =>
    intro _ st m
    simp [importProducts, prodMapGen, prodRowsFrom]
  | cons p ps ih =>
    intro hval st m
    have hmk := hval p (List.mem_cons_self p ps)
    simp only [importProducts, hmk, bind, Except.bind, add_product]
    rw [ih (fun p hp => hval p (List.mem_cons_of_mem _ hp))]
    simp [Store.mk.injEq, prodRowsFrom, prodMapGen, List.append_assoc]
    all_goals omega

theorem itemRowsFrom_order_id (oid : ℕ) :
    ∀ (its : List OrderItem) (m : ℕ) (r : ItemRow),
      r ∈ itemRowsFrom oid its m → r.order_id = oid := by
  intro its
  induction its with
  | nil => intro m r h; simp [itemRowsFrom] at h
  | cons it its ih =>
    intro m r h
    rcases List.mem_cons.mp h with rfl | h'
    · rfl
    · exact ih (m + 1) r h'

theorem orderItemRowsFrom_order_id_ge (pm : List (ℕ × ℕ)) :
    ∀ (os : List ExOrder) (n m : ℕ) (r : ItemRow),
      r ∈ orderItemRowsFrom pm os n m → n ≤ r.order_id ∧ r.order_id < n + os.length := by
  intro os
  induction os with
  | nil => intro n m r h; simp [orderItemRowsFrom] at h
  | cons o os ih =>
    intro n m r h
    rcases List.mem_append.mp h with h' | h'
    · have := itemRowsFrom_order_id n _ _ r h'
      simp [this]
    · have := ih (n + 1) _ r h'
      constructor
      · omega
      · simpa [List.length_cons] using by omega

theorem orderRowsFrom_id_ge (cm : List (ℕ × ℕ)) :
    ∀ (os : List ExOrder) (n : ℕ) (orow : OrderRow),
      orow ∈ orderRowsFrom cm os n → n ≤ orow.id ∧ orow.id < n + os.length := by
  intro os
  induction os with
  | nil => intro n orow h; simp [orderRowsFrom] at h
  | cons o os ih =>
    intro n orow h
    rcases List.mem_cons.mp h with rfl | h'
    · simp
    · have := ih (n + 1) orow h'
      constructor
      · omega
      · simpa [List.length_cons] using by omega

theorem filter_itemRowsFrom_self (oid : ℕ) (its : List OrderItem) (m : ℕ) :
    (itemRowsFrom oid its m).filter (fun it => decide (it.order_id = oid)) =
      itemRowsFrom oid its m := by
  rw [List.filter_eq_self]
  intro r hr
  simp [itemRowsFrom_order_id oid its m r hr]

theorem filter_itemRowsFrom_ne {oid k : ℕ} (hne : k ≠ oid) (its : List OrderItem) (m : ℕ) :
    (itemRowsFrom oid its m).filter (fun it => decide (it.order_id = k)) = [] := by
  rw [List.filter_eq_nil_iff]
  intro r hr
  simp [itemRowsFrom_order_id oid its m r hr, Ne.symm hne]

theorem filter_orderItemRowsFrom_lt (pm : List (ℕ × ℕ)) {k : ℕ} :
    ∀ (os : List ExOrder) {n : ℕ} (m : ℕ), k < n →
      (orderItemRowsFrom pm os n m).filter (fun it => decide (it.order_id = k)) = [] := by
  intro os
  induction os with
  | nil => intro n m _; rfl
  | cons o os ih =>
    intro n m hk
    simp only [orderItemRowsFrom, List.filter_append]
    rw [filter_itemRowsFrom_ne (by omega), ih _ (by omega)]
    rfl

theorem itemRowsFrom_map_total (oid : ℕ) :
    ∀ (its : List OrderItem) (m : ℕ),
      (itemRowsFrom oid its m).map (fun r => r.unit_price * (r.quantity : ℚ)) =
        its.map (fun it => it.unit_price * (it.quantity : ℚ)) := by
  intro its
  induction its with
  | nil => intro m; rfl
  | cons it its ih => intro m; simp [itemRowsFrom, ih]

theorem prodMapGen_keys :
    ∀ (ps : List ProductRow) (n : ℕ), (∀ p ∈ ps, p.id ≠ 0) →
      (prodMapGen ps n).map Prod.fst = (ps.map ProductRow.id).reverse := by
  intro ps
  induction ps with
  | nil => intro n _; rfl
  | cons p ps ih =>
    intro n hnz
    simp only [prodMapGen, List.map_append, List.map_cons, List.reverse_cons,
      ih (n + 1) (fun q hq => hnz q (List.mem_cons_of_mem _ hq))]
    simp [hnz p (List.mem_cons_self p ps)]

theorem custMapGen_keys :
    ∀ (cs : List CustomerRow) (n : ℕ), (∀ c ∈ cs, c.id ≠ 0) →
      (custMapGen cs n).map Prod.fst = (cs.map CustomerRow.id).reverse := by
  intro cs
  induction cs with
  | nil => intro n _; rfl
  | cons c cs ih =>
    intro n hnz
    simp only [custMapGen, List.map_append, List.map_cons, List.reverse_cons,
      ih (n + 1) (fun q hq => hnz q (List.mem_cons_of_mem _ hq))]
    simp [hnz c (List.mem_cons_self c cs)]

/-- Importing the exported products into a fresh store: each old product id is
remapped to a fresh id under which the new table holds the same title and
price. -/
theorem prod_remap_find :
    ∀ (ps : List ProductRow) (n : ℕ), (ps.map ProductRow.id).Nodup →
      (∀ p ∈ ps, p.id ≠ 0) → ∀ p ∈ ps, ∃ k, n ≤ k ∧
      (prodMapGen ps n).find? (fun e => decide (e.1 = p.id)) = some (p.id, k) ∧
      (prodRowsFrom ps n).find? (fun q => decide (q.id = k)) =
        some ⟨k, p.title, p.price⟩ := by
  intro ps
  induction ps with
  | nil => intro n _ _ p hp; simp at hp
  | cons p0 ps ih =>
    intro n hnd hnz p hp
    have hnd' : (ps.map ProductRow.id).Nodup := (List.nodup_cons.mp hnd).2
    have hfresh : p0.id ∉ ps.map ProductRow.id := (List.nodup_cons.mp hnd).1
    have hnz' : ∀ q ∈ ps, q.id ≠ 0 := fun q hq => hnz q (List.mem_cons_of_mem _ hq)
    have hkey0 : (if p0.id = 0 then n else p0.id) = p0.id :=
      if_neg (hnz p0 (List.mem_cons_self p0 ps))
    rcases List.mem_cons.mp hp with rfl | hp'
    · refine ⟨n, le_refl n, ?_, ?_⟩
      · have hnone : (prodMapGen ps (n + 1)).find? (fun e => decide (e.1 = p.id)) = none := by
          rw [List.find?_eq_none]
          intro e he
          have : e.1 ∈ (prodMapGen ps (n + 1)).map Prod.fst := List.mem_map_of_mem _ he
          rw [prodMapGen_keys ps (n + 1) hnz', List.mem_reverse] at this
          simp only [decide_eq_true_eq]
          intro heq
          exact hfresh (heq ▸ this)
        rw [prodMapGen, List.find?_append, hnone, Option.none_or, hkey0]
        simp
      · simp [prodRowsFrom]
    · obtain ⟨k, hk, hfound, hrow⟩ := ih (n + 1) hnd' hnz' p hp'
      refine ⟨k, by omega, ?_, ?_⟩
      · rw [prodMapGen, List.find?_append, hfound]
        rfl
      · rw [prodRowsFrom, List.find?_cons_of_neg, hrow]
        simp only [decide_eq_true_eq]
        omega

/-- Importing the exported customers into a fresh store: each old customer id
is remapped to a fresh id under which the new table holds the same fields. -/
theorem cust_remap_find :
    ∀ (cs : List CustomerRow) (n : ℕ), (cs.map CustomerRow.id).Nodup →
      (∀ c ∈ cs, c.id ≠ 0) → ∀ c ∈ cs, ∃ k, n ≤ k ∧
      (custMapGen cs n).find? (fun e => decide (e.1 = c.id)) = some (c.id, k) ∧
      (custRowsFrom cs n).find? (fun q => decide (q.id = k)) =
        some ⟨k, c.name, c.email, c.phone⟩ := by
  intro cs
  induction cs with
  | nil => intro n _ _ c hc; simp at hc
  | cons c0 cs ih =>
    intro n hnd hnz c hc
    have hnd' : (cs.map CustomerRow.id).Nodup := (List.nodup_cons.mp hnd).2
    have hfresh : c0.id ∉ cs.map CustomerRow.id := (List.nodup_cons.mp hnd).1
    have hnz' : ∀ q ∈ cs, q.id ≠ 0 := fun q hq => hnz q (List.mem_cons_of_mem _ hq)
    have hkey0 : (if c0.id = 0 then n else c0.id) = c0.id :=
      if_neg (hnz c0 (List.mem_cons_self c0 cs))
    rcases List.mem_cons.mp hc with rfl | hc'
    · refine ⟨n, le_refl n, ?_, ?_⟩
      · have hnone : (custMapGen cs (n + 1)).find? (fun e => decide (e.1 = c.id)) = none := by
          rw [List.find?_eq_none]
          intro e he
          have : e.1 ∈ (custMapGen cs (n + 1)).map Prod.fst := List.mem_map_of_mem _ he
          rw [custMapGen_keys cs (n + 1) hnz', List.mem_reverse] at this
          simp only [decide_eq_true_eq]
          intro heq
          exact hfresh (heq ▸ this)
        rw [custMapGen, List.find?_append, hnone, Option.none_or, hkey0]
        simp
      · simp [custRowsFrom]
    · obtain ⟨k, hk, hfound, hrow⟩ := ih (n + 1) hnd' hnz' c hc'
      refine ⟨k, by omega, ?_, ?_⟩
      · rw [custMapGen, List.find?_append, hfound]
        rfl
      · rw [custRowsFrom, List.find?_cons_of_neg, hrow]
        simp only [decide_eq_true_eq]
        omega

theorem buildItems_ok (pm : List (ℕ × ℕ)) :
    ∀ (its : List ExItem) (o : Order), (∀ it ∈ its, 1 ≤ it.quantity) →
      buildItems pm its o = .ok { o with items := o.items ++ its.map (exItemToOrderItem pm) } := by
  intro its
  induction its with
  | nil => intro o _; simp [buildItems]
  | cons it its ih =>
    intro o hq
    have h1 : ¬ it.quantity < 1 := by
      have := hq it (List.mem_cons_self it its)
      omega
    simp only [buildItems, Order.add_item, exItemToOrderItem, if_neg h1, bind, Except.bind]
    rw [ih _ (fun x hx => hq x (List.mem_cons_of_mem _ hx))]
    simp [exItemToOrderItem, List.append_assoc]

theorem insertItemRows_ok (oid : ℕ) :
    ∀ (its : List OrderItem) (st : Store),
      (∀ it ∈ its, ∃ p ∈ st.products, p.id = it.product_id) →
      ∃ st', insertItemRows oid its st = .ok st' := by
  intro its
  induction its with
  | nil => intro st _; exact ⟨st, rfl⟩
  | cons it its ih =>
    intro st hfk
    have hsome : (st.products.find? (fun p => decide (p.id = it.product_id))).isSome := by
      rw [List.find?_isSome]
      obtain ⟨p, hp, hpid⟩ := hfk it (List.mem_cons_self it its)
      exact ⟨p, hp, by simp [hpid]⟩
    obtain ⟨p', hp'⟩ := Option.isSome_iff_exists.mp hsome
    simp only [insertItemRows, hp', Option.isNone_some, Bool.false_eq_true, if_false]
    exact ih _ (fun x hx => hfk x (List.mem_cons_of_mem _ hx))

/-- The orders loop succeeds when quantities are positive and all remapped
references resolve in the target store. -/
theorem importOrders_ok (cm pm : List (ℕ × ℕ)) :
    ∀ (os : List ExOrder) (st : Store),
      (∀ o ∈ os, ∀ it ∈ o.items, 1 ≤ it.quantity) →
      (∀ o ∈ os, ∃ c ∈ st.customers, c.id = lookupD cm o.customer_id) →
      (∀ o ∈ os, ∀ it ∈ o.items, ∃ p ∈ st.products, p.id = lookupD pm it.product_id) →
      ∃ st', importOrders cm pm os st = .ok st' := by
  intro os
  induction os with
  | nil => intro st _ _ _; exact ⟨st, rfl⟩
  | cons o os ih =>
    intro st hq hcfk hpfk
    have hb := buildItems_ok pm o.items
      ⟨none, lookupD cm o.customer_id, o.created_at, []⟩
      (hq o (List.mem_cons_self o os))
    simp only [importOrders, hb, bind, Except.bind]
    have hcs : (st.customers.find? (fun c =>
        decide (c.id = lookupD cm o.customer_id))).isSome := by
      rw [List.find?_isSome]
      obtain ⟨c, hc, hcid⟩ := hcfk o (List.mem_cons_self o os)
      exact ⟨c, hc, by simp [hcid]⟩
    obtain ⟨c', hc'⟩ := Option.isSome_iff_exists.mp hcs
    obtain ⟨stI, hstI⟩ := insertItemRows_ok st.seqOrders
      (o.items.map (exItemToOrderItem pm))
      { st with
        orders := st.orders ++ [⟨st.seqOrders, lookupD cm o.customer_id, o.created_at⟩],
        seqOrders := st.seqOrders + 1 }
      (by
        intro x hx
        simp only [List.mem_map] at hx
        obtain ⟨it, hit, rfl⟩ := hx
        obtain ⟨p, hp, hpid⟩ := hpfk o (List.mem_cons_self o os) it hit
        exact ⟨p, hp, hpid⟩)
    have hao : add_order
        { id := none, customer_id := lookupD cm o.customer_id, created_at := o.created_at,
          items := [] ++ o.items.map (exItemToOrderItem pm) } st =
        .ok (st.seqOrders, stI) := by
      unfold add_order
      rw [if_neg (by simp [hc'])]
      simp only [List.nil_append]
      rw [hstI]
      rfl
    rw [hao]
    simp only
    obtain ⟨hsp, horders⟩ : stI.customers = st.customers ∧ stI.products = st.products := by
      have := insertItemRows_spec _ _ _ _ hstI
      rw [this]
      exact ⟨rfl, rfl⟩
    refine ih stI ?_ ?_ ?_
    · exact fun o' ho' => hq o' (List.mem_cons_of_mem _ ho')
    · intro o' ho'
      rw [hsp]
      exact hcfk o' (List.mem_cons_of_mem _ ho')
    · intro o' ho' it hit
      rw [horders]
      exact hpfk o' (List.mem_cons_of_mem _ ho') it hit

theorem custRowsFrom_map_view :
    ∀ (cs : List CustomerRow) (n : ℕ),
      (custRowsFrom cs n).map custView = cs.map custView := by
  intro cs
  induction cs with
  | nil => intro n; rfl
  | cons c cs ih => intro n; simp [custRowsFrom, custView, ih]

theorem prodRowsFrom_map_view :
    ∀ (ps : List ProductRow) (n : ℕ),
      (prodRowsFrom ps n).map prodView = ps.map prodView := by
  intro ps
  induction ps with
  | nil => intro n; rfl
  | cons p ps ih => intro n; simp [prodRowsFrom, prodView, ih]

/-- Soundness of `get_order_items`: each returned item is a stored item of
the order whose product exists, with snapshot fields preserved and the title
taken from the live product. -/
theorem get_order_items_sound (st : Store) (oid : ℕ) :
    ∀ iv ∈ get_order_items st oid, ∃ it ∈ st.order_items, it.order_id = oid ∧
      iv.product_id = it.product_id ∧ iv.unit_price = it.unit_price ∧
      iv.quantity = it.quantity ∧
      ∃ p ∈ st.products, p.id = it.product_id ∧ iv.product_title = p.title := by
  intro iv hiv
  simp only [get_order_items, List.mem_filterMap, List.mem_filter,
    Option.map_eq_some'] at hiv
  obtain ⟨it, ⟨hmem, hoid⟩, p, hfind, rfl⟩ := hiv
  have hdec := List.find?_some hfind
  exact ⟨it, hmem, of_decide_eq_true hoid, rfl, rfl, rfl,
    p, List.mem_of_find?_eq_some hfind, of_decide_eq_true hdec, rfl⟩

/-- The joined items of one inserted block, viewed without identifiers. -/
theorem itemsJoin_block (prods' : List ProductRow) (pm : List (ℕ × ℕ)) (oid : ℕ) :
    ∀ (its : List ExItem) (m : ℕ),
      (∀ it ∈ its, ∃ q : ProductRow,
        prods'.find? (fun r => decide (r.id = lookupD pm it.product_id)) = some q ∧
        q.title = it.product_title) →
      (itemsJoin prods' (itemRowsFrom oid (its.map (exItemToOrderItem pm)) m) oid).map
          itemView =
        its.map (fun it => (it.product_title, it.unit_price, it.quantity,
          round2 (it.unit_price * (it.quantity : ℚ)))) := by
  intro its
  induction its with
  | nil => intro m _; rfl
  | cons it its ih =>
    intro m hf
    obtain ⟨q, hq, htitle⟩ := hf it (List.mem_cons_self it its)
    simp only [List.map_cons, itemRowsFrom, itemsJoin, exItemToOrderItem]
    rw [List.filter_cons_of_pos (by simp), List.filterMap_cons]
    simp only [hq, Option.map_some']
    have ihx := ih (m + 1) (fun x hx => hf x (List.mem_cons_of_mem _ hx))
    simp only [itemsJoin, exItemToOrderItem] at ihx
    simp only [List.map_cons, ihx, itemView, htitle]

/-- The order views an import produces, computed against the freshly built
orders and item rows. -/
theorem new_order_views (cm pm : List (ℕ × ℕ)) (prods' : List ProductRow) :
    ∀ (os : List ExOrder) (n m : ℕ),
      (∀ o ∈ os, ∀ it ∈ o.items, ∃ q : ProductRow,
        prods'.find? (fun r => decide (r.id = lookupD pm it.product_id)) = some q ∧
        q.title = it.product_title) →
      (orderRowsFrom cm os n).map (fun orow =>
        (orow.created_at,
         itemsTotal (orderItemRowsFrom pm os n m) orow.id,
         (itemsJoin prods' (orderItemRowsFrom pm os n m) orow.id).map itemView)) =
      os.map (fun o =>
        (o.created_at,
         (o.items.map (fun it => it.unit_price * (it.quantity : ℚ))).sum,
         o.items.map (fun it => (it.product_title, it.unit_price, it.quantity,
           round2 (it.unit_price * (it.quantity : ℚ)))))) := by
  intro os
  induction os with
  | nil => intro n m _; rfl
  | cons o os ih =>
    intro n m hf
    have hfilter : (orderItemRowsFrom pm (o :: os) n m).filter
        (fun it => decide (it.order_id = n)) =
        itemRowsFrom n (o.items.map (exItemToOrderItem pm)) m := by
      simp only [orderItemRowsFrom, List.filter_append]
      rw [filter_itemRowsFrom_self, filter_orderItemRowsFrom_lt pm os _ (by omega),
        List.append_nil]
    simp only [orderRowsFrom, List.map_cons]
    congr 1
    · simp only [Prod.mk.injEq, true_and]
      refine ⟨?_, ?_⟩
      · rw [itemsTotal, hfilter, itemRowsFrom_map_total, List.map_map]
        rfl
      · have : itemsJoin prods' (orderItemRowsFrom pm (o :: os) n m) n =
            itemsJoin prods'
              (itemRowsFrom n (o.items.map (exItemToOrderItem pm)) m) n := by
          rw [itemsJoin, hfilter, itemsJoin, filter_itemRowsFrom_self]
        rw [this, itemsJoin_block prods' pm n o.items m (hf o (List.mem_cons_self o os))]
    · rw [← ih (n + 1) (m + o.items.length)
        (fun o' ho' it hit => hf o' (List.mem_cons_of_mem _ ho') it hit)]
      apply List.map_congr_left
      intro orow' hor
      have hge := (orderRowsFrom_id_ge cm os (n + 1) orow' hor).1
      have hneq : orow'.id ≠ n := by omega
      have hskip : (orderItemRowsFrom pm (o :: os) n m).filter
          (fun it => decide (it.order_id = orow'.id)) =
          (orderItemRowsFrom pm os (n + 1) (m + o.items.length)).filter
          (fun it => decide (it.order_id = orow'.id)) := by
        simp only [orderItemRowsFrom, List.filter_append]
        rw [filter_itemRowsFrom_ne hneq]
        rfl
      simp only [itemsTotal, itemsJoin, hskip]

/-- The sum of `unit_price * quantity` over the joined items equals the SQL
aggregate whenever no item is dropped by the join. -/
theorem itemsJoin_total (prods : List ProductRow) (oid : ℕ) :
    ∀ (rows : List ItemRow),
      (∀ it ∈ rows, (prods.find? (fun p => decide (p.id = it.product_id))).isSome) →
      ((itemsJoin prods rows oid).map
        (fun iv => iv.unit_price * (iv.quantity : ℚ))).sum = itemsTotal rows oid := by
  intro rows
  induction rows with
  | nil => intro _; rfl
  | cons r rows ih =>
    intro h
    have hr := h r (List.mem_cons_self r rows)
    obtain ⟨p, hp⟩ := Option.isSome_iff_exists.mp hr
    have ih' := ih (fun x hx => h x (List.mem_cons_of_mem _ hx))
    simp only [itemsJoin, itemsTotal] at ih' ⊢
    by_cases hoid : r.order_id = oid
    · simp [List.filter_cons, hoid, hp, ih']
    · simp [List.filter_cons, hoid, ih']

/-- `list_orders` visits exactly the stored orders (newest first) when every
order's customer resolves; any function of the row's timestamp and order id
agrees with the same function over the raw rows. -/
theorem list_orders_map {γ : Type v} (st : Store)
    (hfk : ∀ o ∈ st.orders, ∃ c ∈ st.customers, c.id = o.customer_id)
    (f : Str → ℕ → γ) :
    (list_orders st).map (fun r => f r.created_at r.id) =
      st.orders.reverse.map (fun o => f o.created_at o.id) := by
  have main : ∀ l : List OrderRow, (∀ o ∈ l, ∃ c ∈ st.customers, c.id = o.customer_id) →
      (l.filterMap fun o =>
        (st.customers.find? (fun c => decide (c.id = o.customer_id))).map fun c =>
          (⟨o.id, o.customer_id, c.name, o.created_at, sqlOrderTotal st o.id⟩ :
            OrderListRow)).map (fun r => f r.created_at r.id) =
      l.map (fun o => f o.created_at o.id) := by
    intro l
    induction l with
    | nil => intro _; rfl
    | cons o l ih =>
      intro h
      obtain ⟨c, hc, hcid⟩ := h o (List.mem_cons_self o l)
      have hsome : (st.customers.find? (fun c => decide (c.id = o.customer_id))).isSome := by
        rw [List.find?_isSome]
        exact ⟨c, hc, by simp [hcid]⟩
      obtain ⟨c', hc'⟩ := Option.isSome_iff_exists.mp hsome
      rw [List.filterMap_cons, hc']
      simp only [Option.map_some', List.map_cons,
        ih (fun o ho => h o (List.mem_cons_of_mem _ ho))]
  exact main _ (fun o ho => hfk o (List.mem_reverse.mp ho))

/-- A `list_orders` row's customer reference is a stored customer. -/
theorem list_orders_customer (st : Store) :
    ∀ r ∈ list_orders st, ∃ c ∈ st.customers, c.id = r.customer_id := by
  intro r hr
  simp only [list_orders, List.mem_filterMap, Option.map_eq_some'] at hr
  obtain ⟨o, _, c, hfind, rfl⟩ := hr
  have hdec := List.find?_some hfind
  exact ⟨c, List.mem_of_find?_eq_some hfind, of_decide_eq_true hdec⟩


/-- C5: exporting a well-formed store and importing the document into a fresh
store succeeds and reproduces the same multisets of customers, products and
orders — all non-identifier fields (names, emails, phones, titles, prices,
timestamps, unit prices, quantities, resolved product titles, line totals and
computed totals) agree. -/
theorem export_import_round_trip (st : Store) (h : StoreWF st) :
    ∃ st', import_json (export_json st) false emptyStore = .ok st' ∧
      (st'.customers.map custView).Perm (st.customers.map custView) ∧
      (st'.products.map prodView).Perm (st.products.map prodView) ∧
      (st'.orders.map (orderView st')).Perm (st.orders.map (orderView st)) := by
  have hvalc : ∀ c ∈ st.customers.reverse,
      customerMk c.name c.email c.phone = .ok ⟨none, c.name, c.email, c.phone⟩ :=
    fun c hc => h.custOk c (List.mem_reverse.mp hc)
  have hvalp : ∀ p ∈ st.products.reverse,
      productMk p.title p.price = .ok ⟨none, p.title, p.price⟩ :=
    fun p hp => h.prodOk p (List.mem_reverse.mp hp)
  have hcnd : (st.customers.reverse.map CustomerRow.id).Nodup := by
    rw [List.map_reverse, List.nodup_reverse]
    exact h.custIdsNodup
  have hpnd : (st.products.reverse.map ProductRow.id).Nodup := by
    rw [List.map_reverse, List.nodup_reverse]
    exact h.prodIdsNodup
  have hcnz : ∀ c ∈ st.customers.reverse, c.id ≠ 0 :=
    fun c hc => h.custIdsNonzero c (List.mem_reverse.mp hc)
  have hpnz : ∀ p ∈ st.products.reverse, p.id ≠ 0 :=
    fun p hp => h.prodIdsNonzero p (List.mem_reverse.mp hp)
  have hC : importCustomers st.customers.reverse emptyStore [] =
      .ok (⟨custRowsFrom st.customers.reverse 1, [], [], [],
            1 + st.customers.reverse.length, 1, 1, 1⟩,
           custMapGen st.customers.reverse 1 ++ []) :=
    importCustomers_ok st.customers.reverse hvalc emptyStore []
  have hP : importProducts st.products.reverse
      (⟨custRowsFrom st.customers.reverse 1, [], [], [],
        1 + st.customers.reverse.length, 1, 1, 1⟩ : Store) [] =
      .ok (⟨custRowsFrom st.customers.reverse 1, prodRowsFrom st.products.reverse 1,
            [], [], 1 + st.customers.reverse.length, 1 + st.products.reverse.length,
            1, 1⟩,
           prodMapGen st.products.reverse 1 ++ []) :=
    importProducts_ok st.products.reverse hvalp _ []
  have hcmnil : (custMapGen st.customers.reverse 1 ++ []) =
      custMapGen st.customers.reverse 1 := List.append_nil _
  have hpmnil : (prodMapGen st.products.reverse 1 ++ []) =
      prodMapGen st.products.reverse 1 := List.append_nil _
  have hitem : ∀ o ∈ (export_json st).orders, ∀ it ∈ o.items,
      1 ≤ it.quantity ∧
      (∃ q : ProductRow,
        (prodRowsFrom st.products.reverse 1).find?
          (fun r => decide (r.id =
            lookupD (prodMapGen st.products.reverse 1 ++ []) it.product_id)) = some q ∧
        q.title = it.product_title) := by
    intro o ho it hit
    simp only [export_json, List.mem_map] at ho
    obtain ⟨r, hr, rfl⟩ := ho
    simp only [List.mem_map] at hit
    obtain ⟨iv, hiv, rfl⟩ := hit
    obtain ⟨row, hrow, -, hpid, -, hqty, p0, hp0, hp0id, htitle⟩ :=
      get_order_items_sound st r.id iv hiv
    constructor
    · rw [hqty]
      exact h.qtyOk row hrow
    · obtain ⟨k, -, hfound, hrowf⟩ := prod_remap_find st.products.reverse 1 hpnd hpnz
        p0 (List.mem_reverse.mpr hp0)
      refine ⟨⟨k, p0.title, p0.price⟩, ?_, htitle.symm⟩
      have hlk : lookupD (prodMapGen st.products.reverse 1 ++ []) iv.product_id = k := by
        rw [hpmnil, lookupD, hpid, ← hp0id, hfound]
      rw [hlk]
      exact hrowf
  have hordc : ∀ o ∈ (export_json st).orders,
      ∃ c ∈ custRowsFrom st.customers.reverse 1,
        c.id = lookupD (custMapGen st.customers.reverse 1 ++ []) o.customer_id := by
    intro o ho
    simp only [export_json, List.mem_map] at ho
    obtain ⟨r, hr, rfl⟩ := ho
    obtain ⟨c0, hc0, hc0id⟩ := list_orders_customer st r hr
    obtain ⟨k, -, hfound, hrowf⟩ := cust_remap_find st.customers.reverse 1 hcnd hcnz
      c0 (List.mem_reverse.mpr hc0)
    refine ⟨⟨k, c0.name, c0.email, c0.phone⟩,
      List.mem_of_find?_eq_some hrowf, ?_⟩
    show k = lookupD (custMapGen st.customers.reverse 1 ++ []) r.customer_id
    rw [hcmnil, lookupD, ← hc0id, hfound]
  obtain ⟨stF, hstF⟩ := importOrders_ok (custMapGen st.customers.reverse 1 ++ [])
    (prodMapGen st.products.reverse 1 ++ []) (export_json st).orders
    (⟨custRowsFrom st.customers.reverse 1, prodRowsFrom st.products.reverse 1,
      [], [], 1 + st.customers.reverse.length, 1 + st.products.reverse.length,
      1, 1⟩ : Store)
    (fun o ho it hit => (hitem o ho it hit).1) hordc
    (by
      intro o ho it hit
      obtain ⟨-, q, hq, -⟩ := hitem o ho it hit
      have hdq := List.find?_some hq
      exact ⟨q, List.mem_of_find?_eq_some hq, of_decide_eq_true hdq⟩)
  have himp : import_json (export_json st) false emptyStore = .ok stF := by
    simp only [import_json, bind, Except.bind]
    rw [if_neg (by simp)]
    rw [show (export_json st).customers = st.customers.reverse from rfl, hC]
    dsimp only
    rw [show (export_json st).products = st.products.reverse from rfl, hP]
    dsimp only
    exact hstF
  have hchar := importOrders_spec (custMapGen st.customers.reverse 1 ++ [])
    (prodMapGen st.products.reverse 1 ++ []) (export_json st).orders _ stF hstF
  refine ⟨stF, himp, ?_, ?_, ?_⟩
  · have hcust : stF.customers = custRowsFrom st.customers.reverse 1 := by
      rw [hchar]
    rw [hcust, custRowsFrom_map_view, List.map_reverse]
    exact List.reverse_perm _
  · have hps : stF.products = prodRowsFrom st.products.reverse 1 := by
      rw [hchar]
    rw [hps, prodRowsFrom_map_view, List.map_reverse]
    exact List.reverse_perm _
  · have horows : stF.orders =
        orderRowsFrom (custMapGen st.customers.reverse 1 ++ [])
          (export_json st).orders 1 := by
      rw [hchar]
      rfl
    have hoi : stF.order_items =
        orderItemRowsFrom (prodMapGen st.products.reverse 1 ++ [])
          (export_json st).orders 1 1 := by
      rw [hchar]
      rfl
    have hprods : stF.products = prodRowsFrom st.products.reverse 1 := by
      rw [hchar]
    have hnew : stF.orders.map (orderView stF) =
        (export_json st).orders.map (fun o =>
          (o.created_at,
           (o.items.map (fun it => it.unit_price * (it.quantity : ℚ))).sum,
           o.items.map (fun it => (it.product_title, it.unit_price, it.quantity,
             round2 (it.unit_price * (it.quantity : ℚ)))))) := by
      rw [horows]
      rw [show (orderRowsFrom (custMapGen st.customers.reverse 1 ++ [])
            (export_json st).orders 1).map (orderView stF) =
          (orderRowsFrom (custMapGen st.customers.reverse 1 ++ [])
            (export_json st).orders 1).map (fun orow =>
            (orow.created_at,
             itemsTotal (orderItemRowsFrom (prodMapGen st.products.reverse 1 ++ [])
               (export_json st).orders 1 1) orow.id,
             (itemsJoin (prodRowsFrom st.products.reverse 1)
               (orderItemRowsFrom (prodMapGen st.products.reverse 1 ++ [])
                 (export_json st).orders 1 1) orow.id).map itemView))
        from List.map_congr_left (fun orow _ => by
          rw [orderView, sqlOrderTotal_eq, get_order_items_eq, hoi, hprods])]
      exact new_order_views (custMapGen st.customers.reverse 1 ++ [])
        (prodMapGen st.products.reverse 1 ++ []) (prodRowsFrom st.products.reverse 1)
        (export_json st).orders 1 1 (fun o ho it hit => (hitem o ho it hit).2)
    have hold : (export_json st).orders.map (fun o =>
        (o.created_at,
         (o.items.map (fun it => it.unit_price * (it.quantity : ℚ))).sum,
         o.items.map (fun it => (it.product_title, it.unit_price, it.quantity,
           round2 (it.unit_price * (it.quantity : ℚ)))))) =
        st.orders.reverse.map (orderView st) := by
      rw [show (export_json st).orders = (list_orders st).map (fun o =>
          ({ id := o.id, customer_id := o.customer_id, created_at := o.created_at,
             total := o.total,
             items := (get_order_items st o.id).map fun it =>
               ⟨it.id, it.product_id, it.product_title, it.unit_price, it.quantity,
                 round2 (it.unit_price * (it.quantity : ℚ))⟩ } : ExOrder)) from rfl]
      rw [List.map_map]
      have hpt : ∀ r ∈ list_orders st,
          ((fun o : ExOrder =>
            (o.created_at,
             (o.items.map (fun it => it.unit_price * (it.quantity : ℚ))).sum,
             o.items.map (fun it => (it.product_title, it.unit_price, it.quantity,
               round2 (it.unit_price * (it.quantity : ℚ)))))) ∘ (fun o =>
            ({ id := o.id, customer_id := o.customer_id, created_at := o.created_at,
               total := o.total,
               items := (get_order_items st o.id).map fun it =>
                 ⟨it.id, it.product_id, it.product_title, it.unit_price, it.quantity,
                   round2 (it.unit_price * (it.quantity : ℚ))⟩ } : ExOrder))) r =
          (fun r : OrderListRow => (r.created_at, sqlOrderTotal st r.id,
            (get_order_items st r.id).map itemView)) r := by
        intro r _
        simp only [Function.comp_apply, List.map_map, Prod.mk.injEq, true_and]
        constructor
        · rw [show ((fun it : ExItem => it.unit_price * (it.quantity : ℚ)) ∘
              (fun it : ItemListRow =>
                (⟨it.id, it.product_id, it.product_title, it.unit_price, it.quantity,
                  round2 (it.unit_price * (it.quantity : ℚ))⟩ : ExItem))) =
              (fun iv : ItemListRow => iv.unit_price * (iv.quantity : ℚ)) from rfl]
          rw [get_order_items_eq, sqlOrderTotal_eq]
          exact itemsJoin_total st.products r.id st.order_items (by
            intro it hit
            rw [List.find?_isSome]
            obtain ⟨p, hp, hpid⟩ := h.itemFK it hit
            exact ⟨p, hp, by simp [hpid]⟩)
        · rfl
      rw [List.map_congr_left hpt]
      exact list_orders_map st h.orderFK
        (fun ca id => (ca, sqlOrderTotal st id, (get_order_items st id).map itemView))
    rw [hnew, hold, List.map_reverse]
    exact List.reverse_perm _

/-- One customer, one product (price 50.00), one order with one line. -/
def c5Store : Store :=
  ⟨[⟨1, ['A'], [], []⟩], [⟨1, ['K'], 50⟩], [⟨1, 1, ['t']⟩], [⟨1, 1, 1, 50, 1⟩],
   2, 2, 2, 2⟩

theorem export_import_round_trip_witness :
    ∃ st', import_json (export_json c5Store) false emptyStore = .ok st' ∧
      (st'.customers.map custView).Perm (c5Store.customers.map custView) ∧
      (st'.products.map prodView).Perm (c5Store.products.map prodView) ∧
      (st'.orders.map (orderView st')).Perm (c5Store.orders.map (orderView c5Store)) := by
  refine export_import_round_trip c5Store ⟨?_, ?_, ?_, ?_, ?_, ?_, ?_, ?_, ?_⟩
  · intro c hc
    have hce : c = ⟨1, ['A'], [], []⟩ := by simpa [c5Store] using hc
    subst hce
    rfl
  · intro p hp
    have hpe : p = ⟨1, ['K'], 50⟩ := by simpa [c5Store] using hp
    subst hpe
    have hsp : setPrice 50 = .ok 50 := by
      unfold setPrice
      rw [if_neg (by norm_num), round2_eq_self 5000 (by norm_num)]
    have h1 : productMk ['K'] 50 =
        Except.bind (setPrice 50) (fun q => .ok ⟨none, ['K'], q⟩) := rfl
    rw [h1, hsp]
    rfl
  · intro it hit
    have hie : it = ⟨1, 1, 1, 50, 1⟩ := by simpa [c5Store] using hit
    subst hie
    decide
  · intro o ho
    have hoe : o = ⟨1, 1, ['t']⟩ := by simpa [c5Store] using ho
    subst hoe
    exact ⟨⟨1, ['A'], [], []⟩, by simp [c5Store], rfl⟩
  · intro it hit
    have hie : it = ⟨1, 1, 1, 50, 1⟩ := by simpa [c5Store] using hit
    subst hie
    exact ⟨⟨1, ['K'], 50⟩, by simp [c5Store], rfl⟩
  · decide
  · decide
  · decide
  · decide

end ShopManager
